import Mathlib

/-!
Verification of the `inquerest` query-string parser.

The repository contains two parser implementations:
* `src/lib.rs` — a rust-peg grammar (`peg! param`) for the full query
  language (operands, conditions, filters, joins, ranges, params, query);
* `src/parser.rs` — a pom-based rewrite covering the literal sub-grammar
  (numbers, quoted strings, raw strings, booleans, null, values).

Both are shallowly embedded here.  Strings are modelled as `List Char`;
rust-peg rules are functions `List Char → PRes α` where `PRes` records
success with a remainder, ordered-choice failure, or a Rust panic (the
`match_str.parse::<i64>().unwrap()` in the `number` rule can panic).
`#[pub]` rules additionally require full input consumption (`pubRun`).
Recursive rules (`operand`/`function`, `filter`, repetitions) are defined
with a fuel parameter large enough for the input; fuel-independence is
proved where general theorems need it.
-/

namespace Inquerest

/-- Outcome of running a rust-peg rule at a position: success with a value
and the remaining input, a normal parse failure (the enclosing ordered
choice tries its next alternative), or a Rust panic (aborts everything). -/
inductive PRes (α : Type) : Type
  | ok : α → List Char → PRes α
  | fail : PRes α
  | panic : PRes α
deriving DecidableEq, Repr

/-- Sequencing of rust-peg expressions: on success continue with the value
and the remainder; failure and panic propagate. -/
def pbind {α β : Type} (x : PRes α) (f : α → List Char → PRes β) : PRes β :=
  match x with
  | .ok a r => f a r
  | .fail => .fail
  | .panic => .panic

/-- Ordered choice `e1 / e2` of rust-peg: the second alternative runs only
when the first fails; a panic in the first aborts. -/
def porElse {α : Type} (x y : PRes α) : PRes α :=
  match x with
  | .ok a r => .ok a r
  | .fail => y
  | .panic => .panic

/-- Map over a successful parse result. -/
def pmap {α β : Type} (f : α → β) (x : PRes α) : PRes β :=
  match x with
  | .ok a r => .ok (f a) r
  | .fail => .fail
  | .panic => .panic

@[simp] theorem pbind_ok {α β : Type} (a : α) (r : List Char)
    (f : α → List Char → PRes β) : pbind (.ok a r) f = f a r := rfl

@[simp] theorem pbind_fail {α β : Type} (f : α → List Char → PRes β) :
    pbind (.fail : PRes α) f = .fail := rfl

@[simp] theorem pbind_panic {α β : Type} (f : α → List Char → PRes β) :
    pbind (.panic : PRes α) f = .panic := rfl

@[simp] theorem porElse_ok {α : Type} (a : α) (r : List Char) (y : PRes α) :
    porElse (.ok a r) y = .ok a r := rfl

@[simp] theorem porElse_fail {α : Type} (y : PRes α) :
    porElse .fail y = y := rfl

@[simp] theorem porElse_panic {α : Type} (y : PRes α) :
    porElse .panic y = .panic := rfl

@[simp] theorem pmap_ok {α β : Type} (f : α → β) (a : α) (r : List Char) :
    pmap f (.ok a r) = .ok (f a) r := rfl

@[simp] theorem pmap_fail {α β : Type} (f : α → β) :
    pmap f (.fail : PRes α) = .fail := rfl

@[simp] theorem pmap_panic {α β : Type} (f : α → β) :
    pmap f (.panic : PRes α) = .panic := rfl

/-- Outcome of a `#[pub]` rust-peg rule called on a whole input string:
rust-peg returns `Err` unless the rule consumes the entire input. -/
inductive POut (α : Type) : Type
  | ok : α → POut α
  | fail : POut α
  | panic : POut α
deriving DecidableEq, Repr

/-- The `#[pub]` wrapper: run the rule and require full consumption. -/
def pubRun {α : Type} (p : List Char → PRes α) (l : List Char) : POut α :=
  match p l with
  | .ok a [] => .ok a
  | .ok _ (_ :: _) => .fail
  | .fail => .fail
  | .panic => .panic

/-- Convenience: a Lean string as the character list the parsers consume. -/
def toChars (s : String) : List Char := s.data

/-! ## AST of `src/lib.rs` (Rust `String` fields modelled as `List Char`) -/

mutual
inductive Operand : Type
  | Column : List Char → Operand
  | Function : Function → Operand
  | Number : Int → Operand
  | Boolean : Bool → Operand

inductive Function : Type
  | mk : List Char → List Operand → Function
end

/-- `Function.function` field of the Rust struct. -/
def Function.function : Function → List Char
  | .mk f _ => f

/-- `Function.params` field of the Rust struct. -/
def Function.params : Function → List Operand
  | .mk _ p => p

inductive Connector : Type
  | AND
  | OR

inductive Direction : Type
  | ASC
  | DESC

structure Order where
  column : List Char
  direction : Direction

inductive Equality : Type
  | EQ
  | NEQ
  | LT
  | LTE
  | GT
  | GTE
  | IN
  | NOT_IN
  | IS
  | IS_NOT
  | LIKE
  | ILIKE

structure Condition where
  left : Operand
  equality : Equality
  right : Operand

structure Equation where
  left : Operand
  right : Operand

inductive Filter : Type
  | mk : Option Connector → Condition → List Filter → Filter

/-- `Filter.connector` field of the Rust struct. -/
def Filter.connector : Filter → Option Connector
  | .mk c _ _ => c

/-- `Filter.condition` field of the Rust struct. -/
def Filter.condition : Filter → Condition
  | .mk _ c _ => c

/-- `Filter.sub_filters` field of the Rust struct. -/
def Filter.sub_filters : Filter → List Filter
  | .mk _ _ s => s

structure Page where
  page : Int
  page_size : Int

structure Limit where
  limit : Int
  offset : Option Int

inductive Range : Type
  | Page : Page → Range
  | Limit : Limit → Range

inductive JoinType : Type
  | CROSS
  | INNER
  | OUTER
  | NATURAL

inductive Modifier : Type
  | LEFT
  | RIGHT
  | FULL

structure Join where
  modifier : Option Modifier
  join_type : Option JoinType
  table : Operand
  column1 : List (List Char)
  column2 : List (List Char)

structure Params where
  filters : List Filter
  equations : List Equation

structure Query where
  from_ : List Operand
  join : List Join
  filters : List Filter
  group_by : List Operand
  having : List Filter
  order_by : List Order
  range : Option Range
  equations : List Equation

/-! ## Primitive rules of the `peg! param` grammar (`src/lib.rs`) -/

/-- Characters of the rust-peg class `[a-zA-Z0-9_]`. -/
def isNameChar (ch : Char) : Bool := ch.isAlphanum || ch = '_'

/-- `name -> String = [a-zA-Z0-9_]+ { match_str.to_string() }` -/
def nameP (l : List Char) : PRes (List Char) :=
  match l.takeWhile isNameChar with
  | [] => .fail
  | pre => .ok pre (l.dropWhile isNameChar)

/-- A rust-peg string literal (e.g. `"eq"`, `"."`, `"join="`): matches the
exact characters at the current position. -/
def tagP (ts : List Char) (l : List Char) : PRes Unit :=
  if ts <+: l then .ok () (l.drop ts.length) else .fail

/-- `i64::MAX`. -/
def i64Max : Nat := 9223372036854775807

/-- Decimal value of a digit run. -/
def digitsToNat (ds : List Char) : Nat :=
  ds.foldl (fun acc ch => 10 * acc + (ch.toNat - 48)) 0

/-- `number -> i64 = [0-9]+ { match_str.parse().unwrap() }`.  The Rust
action `parse::<i64>().unwrap()` panics when the matched digits exceed
`i64::MAX` (digit-only strings convert exactly otherwise). -/
def numberP (l : List Char) : PRes Int :=
  match l.takeWhile Char.isDigit with
  | [] => .fail
  | ds =>
    if digitsToNat ds ≤ i64Max then
      .ok (Int.ofNat (digitsToNat ds)) (l.dropWhile Char.isDigit)
    else .panic

/-- `boolean = "true" { true } / "false" { false }` -/
def booleanP (l : List Char) : PRes Bool :=
  porElse (pmap (fun _ => true) (tagP (toChars "true") l))
    (pmap (fun _ => false) (tagP (toChars "false") l))

/-- `direction = "asc" { ASC } / "desc" { DESC }` -/
def directionP (l : List Char) : PRes Direction :=
  porElse (pmap (fun _ => Direction.ASC) (tagP (toChars "asc") l))
    (pmap (fun _ => Direction.DESC) (tagP (toChars "desc") l))

/-- `connector = "&" { AND } / "|" { OR }` -/
def connectorP (l : List Char) : PRes Connector :=
  porElse (pmap (fun _ => Connector.AND) (tagP ['&'] l))
    (pmap (fun _ => Connector.OR) (tagP ['|'] l))

/-- `column_name = t:name "." d:!direction c:name { "t.c" } / c:name`.
The `!direction` is a negative lookahead: the first alternative is taken
only when `direction` fails right after the dot. -/
def column_nameP (l : List Char) : PRes (List Char) :=
  porElse
    (pbind (nameP l) fun t r1 =>
      pbind (tagP ['.'] r1) fun _ r2 =>
        match directionP r2 with
        | .ok _ _ => .fail
        | .panic => .panic
        | .fail => pbind (nameP r2) fun c r3 => .ok (t ++ '.' :: c) r3)
    (nameP l)

/-- The `"lt" e:"e"?` branch of `equality`. -/
def ltBranch (l : List Char) : PRes Equality :=
  pbind (tagP (toChars "lt") l) fun _ r =>
    match tagP (toChars "e") r with
    | .ok _ r2 => .ok .LTE r2
    | .fail => .ok .LT r
    | .panic => .panic

/-- The `"gt" e:"e"?` branch of `equality`. -/
def gtBranch (l : List Char) : PRes Equality :=
  pbind (tagP (toChars "gt") l) fun _ r =>
    match tagP (toChars "e") r with
    | .ok _ r2 => .ok .GTE r2
    | .fail => .ok .GT r
    | .panic => .panic

/-- The `"is" _not:"_not"?` branch of `equality`. -/
def isBranch (l : List Char) : PRes Equality :=
  pbind (tagP (toChars "is") l) fun _ r =>
    match tagP (toChars "_not") r with
    | .ok _ r2 => .ok .IS_NOT r2
    | .fail => .ok .IS r
    | .panic => .panic

/-- `equality = "eq" / "neq" / "lt" e:"e"? / "gt" e:"e"? / "in" / "not_in"
/ "is" _not:"_not"? / "like" / "ilike"` (source order). -/
def equalityP (l : List Char) : PRes Equality :=
  porElse (pmap (fun _ => Equality.EQ) (tagP (toChars "eq") l))
    (porElse (pmap (fun _ => Equality.NEQ) (tagP (toChars "neq") l))
      (porElse (ltBranch l)
        (porElse (gtBranch l)
          (porElse (pmap (fun _ => Equality.IN) (tagP (toChars "in") l))
            (porElse (pmap (fun _ => Equality.NOT_IN) (tagP (toChars "not_in") l))
              (porElse (isBranch l)
                (porElse (pmap (fun _ => Equality.LIKE) (tagP (toChars "like") l))
                  (pmap (fun _ => Equality.ILIKE) (tagP (toChars "ilike") l)))))))))

/-! ### Inversion lemmas for the combinators -/

theorem pbind_eq_ok {α β : Type} {x : PRes α} {f : α → List Char → PRes β}
    {v : β} {r : List Char} :
    pbind x f = .ok v r ↔ ∃ a m, x = .ok a m ∧ f a m = .ok v r := by
  cases x with
  | ok a m =>
    constructor
    · intro h
      exact ⟨a, m, rfl, h⟩
    · rintro ⟨a', m', h1, h2⟩
      cases h1
      exact h2
  | fail => simp [pbind]
  | panic => simp [pbind]

theorem porElse_eq_ok {α : Type} {x y : PRes α} {v : α} {r : List Char} :
    porElse x y = .ok v r ↔ x = .ok v r ∨ (x = .fail ∧ y = .ok v r) := by
  cases x <;> simp [porElse]

theorem pmap_eq_ok {α β : Type} {f : α → β} {x : PRes α} {v : β}
    {r : List Char} :
    pmap f x = .ok v r ↔ ∃ a, x = .ok a r ∧ f a = v := by
  cases x with
  | ok a m =>
    constructor
    · intro h
      cases h
      exact ⟨a, rfl, rfl⟩
    · rintro ⟨a', h1, h2⟩
      cases h1
      rw [pmap_ok, h2]
  | fail => simp [pmap]
  | panic => simp [pmap]

theorem tagP_ok_iff {ts l r : List Char} {v : Unit} :
    tagP ts l = .ok v r ↔ l = ts ++ r := by
  unfold tagP
  split
  case isTrue h =>
    obtain ⟨u, hu⟩ := h
    subst hu
    simp [List.drop_left]
  case isFalse h =>
    constructor
    · intro hh
      cases hh
    · intro hh
      exact absurd ⟨r, hh.symm⟩ h

theorem nameP_ok_iff {l v r : List Char} :
    nameP l = .ok v r ↔
      v = l.takeWhile isNameChar ∧ v ≠ [] ∧ r = l.dropWhile isNameChar := by
  unfold nameP
  cases h : l.takeWhile isNameChar with
  | nil =>
    simp only [h]
    constructor
    · intro hh
      cases hh
    · rintro ⟨rfl, hne, -⟩
      exact absurd rfl hne
  | cons a t =>
    simp only [h]
    constructor
    · intro hh
      cases hh
      simp
    · rintro ⟨rfl, -, rfl⟩
      rfl

theorem nameP_ok_append {l v r : List Char} (h : nameP l = .ok v r) :
    l = v ++ r ∧ v ≠ [] := by
  obtain ⟨hv, hne, hr⟩ := nameP_ok_iff.mp h
  subst hv
  subst hr
  exact ⟨(List.takeWhile_append_dropWhile ..).symm, hne⟩

theorem numberP_ok_iff {l r : List Char} {v : Int} :
    numberP l = .ok v r ↔
      l.takeWhile Char.isDigit ≠ [] ∧
      digitsToNat (l.takeWhile Char.isDigit) ≤ i64Max ∧
      v = Int.ofNat (digitsToNat (l.takeWhile Char.isDigit)) ∧
      r = l.dropWhile Char.isDigit := by
  unfold numberP
  cases h : l.takeWhile Char.isDigit with
  | nil => simp [h]
  | cons a t =>
    simp only [h]
    split
    case isTrue hle =>
      constructor
      · intro hh
        cases hh
        simp [hle]
      · rintro ⟨-, -, rfl, rfl⟩
        rfl
    case isFalse hle =>
      constructor
      · intro hh
        cases hh
      · rintro ⟨-, hle2, -, -⟩
        exact absurd hle2 hle

/-! ### Consumption: a successful parse consumes part of the input -/

theorem tagP_consume {ts l r : List Char} {v : Unit}
    (h : tagP ts l = .ok v r) : r.length + ts.length = l.length := by
  have := tagP_ok_iff.mp h
  subst this
  simp [Nat.add_comm]

theorem nameP_consume {l v r : List Char} (h : nameP l = .ok v r) :
    r.length < l.length := by
  obtain ⟨happ, hne⟩ := nameP_ok_append h
  subst happ
  cases v with
  | nil => exact absurd rfl hne
  | cons a t => simp [Nat.lt_succ_iff]

theorem numberP_consume {l r : List Char} {v : Int}
    (h : numberP l = .ok v r) : r.length < l.length := by
  obtain ⟨hne, -, -, hr⟩ := numberP_ok_iff.mp h
  subst hr
  have happ := (List.takeWhile_append_dropWhile Char.isDigit l).symm
  conv_rhs => rw [happ]
  cases h2 : l.takeWhile Char.isDigit with
  | nil => exact absurd h2 hne
  | cons a t => simp [h2, Nat.lt_succ_iff]

theorem tagP_consume_lt {ts l r : List Char} {v : Unit}
    (hne : ts ≠ []) (h : tagP ts l = .ok v r) : r.length < l.length := by
  have h1 := tagP_consume h
  have h2 : 0 < ts.length := by
    cases ts with
    | nil => exact absurd rfl hne
    | cons x xs => simp
  omega

theorem booleanP_consume {l : List Char} {v : Bool} {r : List Char}
    (h : booleanP l = .ok v r) : r.length < l.length := by
  unfold booleanP at h
  rcases porElse_eq_ok.mp h with h1 | ⟨-, h1⟩ <;>
    · obtain ⟨a, ha, -⟩ := pmap_eq_ok.mp h1
      exact tagP_consume_lt (by decide) ha

theorem column_nameP_consume {l v r : List Char}
    (h : column_nameP l = .ok v r) : r.length < l.length := by
  unfold column_nameP at h
  rcases porElse_eq_ok.mp h with h1 | ⟨-, h1⟩
  · obtain ⟨t, r1, hname, h2⟩ := pbind_eq_ok.mp h1
    obtain ⟨u, r2, hdot, h3⟩ := pbind_eq_ok.mp h2
    have hn1 := nameP_consume hname
    have hd := tagP_consume hdot
    cases hdir : directionP r2 <;> rw [hdir] at h3
    · cases h3
    · obtain ⟨c, r3, hname2, h4⟩ := pbind_eq_ok.mp h3
      cases h4
      have hn2 := nameP_consume hname2
      simp at hd
      omega
    · cases h3
  · exact nameP_consume h1

theorem ltBranch_consume {l : List Char} {v : Equality} {r : List Char}
    (h : ltBranch l = .ok v r) : r.length < l.length := by
  unfold ltBranch at h
  obtain ⟨a, m, ha, hm⟩ := pbind_eq_ok.mp h
  have h1 := tagP_consume_lt (by decide) ha
  split at hm
  next heq =>
    cases hm
    have h2 := tagP_consume heq
    omega
  next =>
    cases hm
    omega
  next =>
    cases hm

theorem gtBranch_consume {l : List Char} {v : Equality} {r : List Char}
    (h : gtBranch l = .ok v r) : r.length < l.length := by
  unfold gtBranch at h
  obtain ⟨a, m, ha, hm⟩ := pbind_eq_ok.mp h
  have h1 := tagP_consume_lt (by decide) ha
  split at hm
  next heq =>
    cases hm
    have h2 := tagP_consume heq
    omega
  next =>
    cases hm
    omega
  next =>
    cases hm

theorem isBranch_consume {l : List Char} {v : Equality} {r : List Char}
    (h : isBranch l = .ok v r) : r.length < l.length := by
  unfold isBranch at h
  obtain ⟨a, m, ha, hm⟩ := pbind_eq_ok.mp h
  have h1 := tagP_consume_lt (by decide) ha
  split at hm
  next heq =>
    cases hm
    have h2 := tagP_consume heq
    omega
  next =>
    cases hm
    omega
  next =>
    cases hm

theorem equalityP_consume {l : List Char} {v : Equality} {r : List Char}
    (h : equalityP l = .ok v r) : r.length < l.length := by
  unfold equalityP at h
  rcases porElse_eq_ok.mp h with h1 | ⟨-, h⟩
  · obtain ⟨a, ha, -⟩ := pmap_eq_ok.mp h1
    exact tagP_consume_lt (by decide) ha
  rcases porElse_eq_ok.mp h with h1 | ⟨-, h⟩
  · obtain ⟨a, ha, -⟩ := pmap_eq_ok.mp h1
    exact tagP_consume_lt (by decide) ha
  rcases porElse_eq_ok.mp h with h1 | ⟨-, h⟩
  · exact ltBranch_consume h1
  rcases porElse_eq_ok.mp h with h1 | ⟨-, h⟩
  · exact gtBranch_consume h1
  rcases porElse_eq_ok.mp h with h1 | ⟨-, h⟩
  · obtain ⟨a, ha, -⟩ := pmap_eq_ok.mp h1
    exact tagP_consume_lt (by decide) ha
  rcases porElse_eq_ok.mp h with h1 | ⟨-, h⟩
  · obtain ⟨a, ha, -⟩ := pmap_eq_ok.mp h1
    exact tagP_consume_lt (by decide) ha
  rcases porElse_eq_ok.mp h with h1 | ⟨-, h⟩
  · exact isBranch_consume h1
  rcases porElse_eq_ok.mp h with h1 | ⟨-, h⟩
  · obtain ⟨a, ha, -⟩ := pmap_eq_ok.mp h1
    exact tagP_consume_lt (by decide) ha
  obtain ⟨a, ha, -⟩ := pmap_eq_ok.mp h
  exact tagP_consume_lt (by decide) ha

theorem connectorP_consume {l : List Char} {v : Connector} {r : List Char}
    (h : connectorP l = .ok v r) : r.length < l.length := by
  unfold connectorP at h
  rcases porElse_eq_ok.mp h with h1 | ⟨-, h1⟩ <;>
    · obtain ⟨a, ha, -⟩ := pmap_eq_ok.mp h1
      exact tagP_consume_lt (by decide) ha

/-! ## `operand` and `function` (mutually recursive, defined with fuel) -/

mutual
/-- Fueled `operand = f:function / b:boolean / n:number / c:column_name`
(source order of alternatives). -/
def operandF : Nat → List Char → PRes Operand
  | 0, _ => .fail
  | fuel + 1, l =>
    porElse (pmap Operand.Function (functionF fuel l))
      (porElse (pmap Operand.Boolean (booleanP l))
        (porElse (pmap Operand.Number (numberP l))
          (pmap Operand.Column (column_nameP l))))

/-- Fueled `function = f:name "(" p:operand ")" { Function f [p] }`. -/
def functionF : Nat → List Char → PRes Function
  | 0, _ => .fail
  | fuel + 1, l =>
    pbind (nameP l) fun f r1 =>
      pbind (tagP ['('] r1) fun _ r2 =>
        pbind (operandF fuel r2) fun p r3 =>
          pbind (tagP [')'] r3) fun _ r4 => .ok (.mk f [p]) r4
end

theorem operandF_succ (fuel : Nat) (l : List Char) :
    operandF (fuel + 1) l =
      porElse (pmap Operand.Function (functionF fuel l))
        (porElse (pmap Operand.Boolean (booleanP l))
          (porElse (pmap Operand.Number (numberP l))
            (pmap Operand.Column (column_nameP l)))) := rfl

theorem functionF_succ (fuel : Nat) (l : List Char) :
    functionF (fuel + 1) l =
      pbind (nameP l) fun f r1 =>
        pbind (tagP ['('] r1) fun _ r2 =>
          pbind (operandF fuel r2) fun p r3 =>
            pbind (tagP [')'] r3) fun _ r4 => .ok (.mk f [p]) r4 := rfl

/-- `operand`, with fuel sufficient for the input. -/
def operandP (l : List Char) : PRes Operand := operandF (2 * l.length + 2) l

/-- `function`, with fuel sufficient for the input. -/
def functionP (l : List Char) : PRes Function := functionF (2 * l.length + 2) l

theorem opfunF_consume (fuel : Nat) :
    (∀ l v r, operandF fuel l = .ok v r → r.length < l.length) ∧
    (∀ l v r, functionF fuel l = .ok v r → r.length < l.length) := by
  induction fuel with
  | zero =>
    constructor <;> intro l v r h <;> exact absurd h (by simp [operandF, functionF])
  | succ f ih =>
    constructor
    · intro l v r h
      rw [operandF_succ] at h
      rcases porElse_eq_ok.mp h with h1 | ⟨-, h⟩
      · obtain ⟨a, ha, -⟩ := pmap_eq_ok.mp h1
        exact ih.2 l a r ha
      rcases porElse_eq_ok.mp h with h1 | ⟨-, h⟩
      · obtain ⟨a, ha, -⟩ := pmap_eq_ok.mp h1
        exact booleanP_consume ha
      rcases porElse_eq_ok.mp h with h1 | ⟨-, h⟩
      · obtain ⟨a, ha, -⟩ := pmap_eq_ok.mp h1
        exact numberP_consume ha
      · obtain ⟨a, ha, -⟩ := pmap_eq_ok.mp h
        exact column_nameP_consume ha
    · intro l v r h
      rw [functionF_succ] at h
      obtain ⟨nm, r1, hname, h2⟩ := pbind_eq_ok.mp h
      obtain ⟨u1, r2, hpar, h3⟩ := pbind_eq_ok.mp h2
      obtain ⟨p, r3, hop, h4⟩ := pbind_eq_ok.mp h3
      obtain ⟨u2, r4, hclose, h5⟩ := pbind_eq_ok.mp h4
      cases h5
      have c1 := nameP_consume hname
      have c2 := tagP_consume hpar
      have c3 := ih.1 r2 p r3 hop
      have c4 := tagP_consume hclose
      simp at c2 c4
      omega

theorem operandP_consume {l : List Char} {v : Operand} {r : List Char}
    (h : operandP l = .ok v r) : r.length < l.length :=
  (opfunF_consume (2 * l.length + 2)).1 l v r h

/-- Fuel-independence: any fuel above twice the input length gives the
same result for `operandF`/`functionF`. -/
theorem opfunF_irrel (f1 : Nat) :
    ∀ (f2 : Nat) (l : List Char),
      (2 * l.length + 1 < f1 → 2 * l.length + 1 < f2 →
        operandF f1 l = operandF f2 l) ∧
      (2 * l.length < f1 → 2 * l.length < f2 →
        functionF f1 l = functionF f2 l) := by
  induction f1 with
  | zero =>
    intro f2 l
    constructor <;> intro h1 <;> omega
  | succ a ih =>
    intro f2 l
    constructor
    · intro h1 h2
      cases f2 with
      | zero => omega
      | succ b =>
        rw [operandF_succ, operandF_succ]
        rw [(ih b l).2 (by omega) (by omega)]
    · intro h1 h2
      cases f2 with
      | zero => omega
      | succ b =>
        rw [functionF_succ, functionF_succ]
        cases hname : nameP l with
        | fail => simp
        | panic => simp
        | ok nm r1 =>
          simp only [pbind_ok]
          cases hpar : tagP ['('] r1 with
          | fail => simp
          | panic => simp
          | ok u r2 =>
            simp only [pbind_ok]
            have hl : r2.length + 2 ≤ l.length := by
              obtain ⟨happ, hne⟩ := nameP_ok_append hname
              have := tagP_consume hpar
              have hn : 0 < nm.length := by
                cases nm with
                | nil => exact absurd rfl hne
                | cons x xs => simp
              subst happ
              simp at this ⊢
              omega
            rw [(ih b r2).1 (by omega) (by omega)]

theorem operandP_eq (l : List Char) :
    operandP l =
      porElse (pmap Operand.Function (functionP l))
        (porElse (pmap Operand.Boolean (booleanP l))
          (porElse (pmap Operand.Number (numberP l))
            (pmap Operand.Column (column_nameP l)))) := by
  show operandF (2 * l.length + 1 + 1) l = _
  rw [operandF_succ]
  rw [(opfunF_irrel (2 * l.length + 1) (2 * l.length + 2) l).2 (by omega) (by omega)]
  rfl

theorem functionP_eq (l : List Char) :
    functionP l =
      pbind (nameP l) fun f r1 =>
        pbind (tagP ['('] r1) fun _ r2 =>
          pbind (operandP r2) fun p r3 =>
            pbind (tagP [')'] r3) fun _ r4 => .ok (.mk f [p]) r4 := by
  show functionF (2 * l.length + 1 + 1) l = _
  rw [functionF_succ]
  cases hname : nameP l with
  | fail => simp
  | panic => simp
  | ok nm r1 =>
    simp only [pbind_ok]
    cases hpar : tagP ['('] r1 with
    | fail => simp
    | panic => simp
    | ok u r2 =>
      simp only [pbind_ok]
      have hl : r2.length + 2 ≤ l.length := by
        obtain ⟨happ, hne⟩ := nameP_ok_append hname
        have := tagP_consume hpar
        have hn : 0 < nm.length := by
          cases nm with
          | nil => exact absurd rfl hne
          | cons x xs => simp
        subst happ
        simp at this ⊢
        omega
      rw [show operandP r2 = operandF (2 * l.length + 1) r2 from
        ((opfunF_irrel (2 * r2.length + 2) (2 * l.length + 1) r2).1
          (by omega) (by omega))]

/-! ## `condition` and `filter` -/

/-- `condition = l:operand "=" eq:equality "." r:operand`. -/
def conditionP (l : List Char) : PRes Condition :=
  pbind (operandP l) fun lft r1 =>
    pbind (tagP ['='] r1) fun _ r2 =>
      pbind (equalityP r2) fun e r3 =>
        pbind (tagP ['.'] r3) fun _ r4 =>
          pbind (operandP r4) fun rgt r5 => .ok ⟨lft, e, rgt⟩ r5

theorem conditionP_consume {l : List Char} {v : Condition} {r : List Char}
    (h : conditionP l = .ok v r) : r.length < l.length := by
  unfold conditionP at h
  obtain ⟨lft, r1, hop1, h2⟩ := pbind_eq_ok.mp h
  obtain ⟨u1, r2, heq, h3⟩ := pbind_eq_ok.mp h2
  obtain ⟨e, r3, heql, h4⟩ := pbind_eq_ok.mp h3
  obtain ⟨u2, r4, hdot, h5⟩ := pbind_eq_ok.mp h4
  obtain ⟨rgt, r5, hop2, h6⟩ := pbind_eq_ok.mp h5
  cases h6
  have c1 := operandP_consume hop1
  have c2 := tagP_consume heq
  have c3 := equalityP_consume heql
  have c4 := tagP_consume hdot
  have c5 := operandP_consume hop2
  simp at c2 c4
  omega

/-- First alternative of `filter`: `c:condition conn:connector f:filter`,
re-rooting the recursive result as the single sub-filter that carries the
connector. -/
def filterAlt1 (rec : List Char → PRes Filter) (l : List Char) : PRes Filter :=
  pbind (conditionP l) fun c r1 =>
    pbind (connectorP r1) fun conn r2 =>
      pbind (rec r2) fun f r3 =>
        .ok (.mk none c [.mk (some conn) f.condition f.sub_filters]) r3

/-- Second alternative of `filter`: `"(" f:filter ")" { f }`. -/
def filterAlt2 (rec : List Char → PRes Filter) (l : List Char) : PRes Filter :=
  pbind (tagP ['('] l) fun _ r1 =>
    pbind (rec r1) fun f r2 =>
      pbind (tagP [')'] r2) fun _ r3 => .ok f r3

/-- Third alternative of `filter`: `c:condition`, a leaf node. -/
def filterAlt3 (l : List Char) : PRes Filter :=
  pbind (conditionP l) fun c r => .ok (.mk none c []) r

/-- Fueled `filter` with the three source alternatives in order. -/
def filterF : Nat → List Char → PRes Filter
  | 0, _ => .fail
  | fuel + 1, l =>
    porElse (filterAlt1 (filterF fuel) l)
      (porElse (filterAlt2 (filterF fuel) l) (filterAlt3 l))

theorem filterF_succ (fuel : Nat) (l : List Char) :
    filterF (fuel + 1) l =
      porElse (filterAlt1 (filterF fuel) l)
        (porElse (filterAlt2 (filterF fuel) l) (filterAlt3 l)) := rfl

/-- `filter`, with fuel sufficient for the input. -/
def filterP (l : List Char) : PRes Filter := filterF (l.length + 1) l

theorem filterF_irrel (f1 : Nat) :
    ∀ (f2 : Nat) (l : List Char), l.length < f1 → l.length < f2 →
      filterF f1 l = filterF f2 l := by
  induction f1 with
  | zero =>
    intro f2 l h1
    omega
  | succ a ih =>
    intro f2 l h1 h2
    cases f2 with
    | zero => omega
    | succ b =>
      rw [filterF_succ, filterF_succ]
      have e1 : filterAlt1 (filterF a) l = filterAlt1 (filterF b) l := by
        unfold filterAlt1
        cases hc : conditionP l with
        | fail => simp
        | panic => simp
        | ok c r1 =>
          simp only [pbind_ok]
          cases hk : connectorP r1 with
          | fail => simp
          | panic => simp
          | ok conn r2 =>
            simp only [pbind_ok]
            have d1 := conditionP_consume hc
            have d2 := connectorP_consume hk
            rw [ih b r2 (by omega) (by omega)]
      have e2 : filterAlt2 (filterF a) l = filterAlt2 (filterF b) l := by
        unfold filterAlt2
        cases hp : tagP ['('] l with
        | fail => simp
        | panic => simp
        | ok u r1 =>
          simp only [pbind_ok]
          have d1 := tagP_consume hp
          simp at d1
          rw [ih b r1 (by omega) (by omega)]
      rw [e1, e2]

theorem filterP_eq (l : List Char) :
    filterP l =
      porElse (filterAlt1 filterP l)
        (porElse (filterAlt2 filterP l) (filterAlt3 l)) := by
  show filterF (l.length + 1) l = _
  rw [filterF_succ]
  have e1 : filterAlt1 (filterF l.length) l = filterAlt1 filterP l := by
    unfold filterAlt1
    cases hc : conditionP l with
    | fail => simp
    | panic => simp
    | ok c r1 =>
      simp only [pbind_ok]
      cases hk : connectorP r1 with
      | fail => simp
      | panic => simp
      | ok conn r2 =>
        simp only [pbind_ok]
        have d1 := conditionP_consume hc
        have d2 := connectorP_consume hk
        rw [show filterF l.length r2 = filterP r2 from
          filterF_irrel l.length (r2.length + 1) r2 (by omega) (by omega)]
  have e2 : filterAlt2 (filterF l.length) l = filterAlt2 filterP l := by
    unfold filterAlt2
    cases hp : tagP ['('] l with
    | fail => simp
    | panic => simp
    | ok u r1 =>
      simp only [pbind_ok]
      have d1 := tagP_consume hp
      simp at d1
      rw [show filterF l.length r1 = filterP r1 from
        filterF_irrel l.length (r1.length + 1) r1 (by omega) (by omega)]
  rw [e1, e2]

/-! ## Repetition combinators of rust-peg (`e ++ sep`, `e ** sep`, `e+`, `e?`) -/

/-- `e?`: optional, consuming nothing on failure. -/
def poptP {α : Type} (p : List Char → PRes α) (l : List Char) :
    PRes (Option α) :=
  match p l with
  | .ok a r => .ok (some a) r
  | .fail => .ok none l
  | .panic => .panic

/-- Fueled `e ++ sep` (one or more `e` separated by `sep`); a trailing
separator not followed by `e` is left unconsumed. -/
def sepByF {α : Type} (p : List Char → PRes α) (sep : List Char) :
    Nat → List Char → PRes (List α)
  | 0, _ => .fail
  | fuel + 1, l =>
    pbind (p l) fun a r =>
      match tagP sep r with
      | .fail => .ok [a] r
      | .panic => .panic
      | .ok _ r2 =>
        match sepByF p sep fuel r2 with
        | .ok as r3 => .ok (a :: as) r3
        | .fail => .ok [a] r
        | .panic => .panic

/-- `e ++ sep`, with fuel sufficient for the input. -/
def sepBy1P {α : Type} (p : List Char → PRes α) (sep : List Char)
    (l : List Char) : PRes (List α) :=
  sepByF p sep (l.length + 1) l

/-- `e ** sep` (zero or more `e` separated by `sep`). -/
def sepBy0P {α : Type} (p : List Char → PRes α) (sep : List Char)
    (l : List Char) : PRes (List α) :=
  match sepBy1P p sep l with
  | .ok as r => .ok as r
  | .fail => .ok [] l
  | .panic => .panic

/-- Fueled `e+` (one or more, no separator). -/
def rep1F {α : Type} (p : List Char → PRes α) :
    Nat → List Char → PRes (List α)
  | 0, _ => .fail
  | fuel + 1, l =>
    pbind (p l) fun a r =>
      match rep1F p fuel r with
      | .ok as r2 => .ok (a :: as) r2
      | .fail => .ok [a] r
      | .panic => .panic

/-- `e+`, with fuel sufficient for the input. -/
def rep1P {α : Type} (p : List Char → PRes α) (l : List Char) :
    PRes (List α) :=
  rep1F p (l.length + 1) l

/-! ## Clause rules of the `peg! param` grammar -/

/-- `equation = l:operand "=" r:operand`. -/
def equationP (l : List Char) : PRes Equation :=
  pbind (operandP l) fun lft r1 =>
    pbind (tagP ['='] r1) fun _ r2 =>
      pbind (operandP r2) fun rgt r3 => .ok ⟨lft, rgt⟩ r3

/-- `order = c:column_name "." d:direction`. -/
def orderP (l : List Char) : PRes Order :=
  pbind (column_nameP l) fun c r1 =>
    pbind (tagP ['.'] r1) fun _ r2 =>
      pbind (directionP r2) fun d r3 => .ok ⟨c, d⟩ r3

/-- `order_by = "order_by" "=" o:order++ ","`. -/
def order_byP (l : List Char) : PRes (List Order) :=
  pbind (tagP (toChars "order_by") l) fun _ r1 =>
    pbind (tagP ['='] r1) fun _ r2 => sepBy1P orderP [','] r2

/-- `group_by = "group_by" "=" fields:operand++ ","`. -/
def group_byP (l : List Char) : PRes (List Operand) :=
  pbind (tagP (toChars "group_by") l) fun _ r1 =>
    pbind (tagP ['='] r1) fun _ r2 => sepBy1P operandP [','] r2

/-- `from = "from" "=" fr:operand++ ","`. -/
def fromP (l : List Char) : PRes (List Operand) :=
  pbind (tagP (toChars "from") l) fun _ r1 =>
    pbind (tagP ['='] r1) fun _ r2 => sepBy1P operandP [','] r2

/-- `modifier = "left" / "right" / "full"`. -/
def modifierP (l : List Char) : PRes Modifier :=
  porElse (pmap (fun _ => Modifier.LEFT) (tagP (toChars "left") l))
    (porElse (pmap (fun _ => Modifier.RIGHT) (tagP (toChars "right") l))
      (pmap (fun _ => Modifier.FULL) (tagP (toChars "full") l)))

/-- `join_type = "inner" / "outer" / "cross" / "natural"`. -/
def join_typeP (l : List Char) : PRes JoinType :=
  porElse (pmap (fun _ => JoinType.INNER) (tagP (toChars "inner") l))
    (porElse (pmap (fun _ => JoinType.OUTER) (tagP (toChars "outer") l))
      (porElse (pmap (fun _ => JoinType.CROSS) (tagP (toChars "cross") l))
        (pmap (fun _ => JoinType.NATURAL) (tagP (toChars "natural") l))))

/-- `modifier_join_type = m "_" jt / m / jt`. -/
def modifier_join_typeP (l : List Char) :
    PRes (Option Modifier × Option JoinType) :=
  porElse
    (pbind (modifierP l) fun m r1 =>
      pbind (tagP ['_'] r1) fun _ r2 =>
        pbind (join_typeP r2) fun jt r3 => .ok (some m, some jt) r3)
    (porElse (pmap (fun m => (some m, none)) (modifierP l))
      (pmap (fun jt => (none, some jt)) (join_typeP l)))

/-- `and_on = "&on=" c1:column_name "=" c2:column_name`. -/
def and_onP (l : List Char) : PRes (List Char × List Char) :=
  pbind (tagP (toChars "&on=") l) fun _ r1 =>
    pbind (column_nameP r1) fun c1 r2 =>
      pbind (tagP ['='] r2) fun _ r3 =>
        pbind (column_nameP r3) fun c2 r4 => .ok (c1, c2) r4

/-- `join = m_jt:modifier_join_type? "_"? "join" "=" t:operand on:and_on+`,
accumulating the `on` pairs into the two parallel column vectors. -/
def joinP (l : List Char) : PRes Join :=
  pbind (poptP modifier_join_typeP l) fun mjt r1 =>
    pbind (poptP (tagP ['_']) r1) fun _ r2 =>
      pbind (tagP (toChars "join") r2) fun _ r3 =>
        pbind (tagP ['='] r3) fun _ r4 =>
          pbind (operandP r4) fun t r5 =>
            pbind (rep1P and_onP r5) fun prs r6 =>
              .ok
                { modifier := (match mjt with
                    | some mj => mj.1
                    | none => none),
                  join_type := (match mjt with
                    | some mj => mj.2
                    | none => none),
                  table := t,
                  column1 := prs.map Prod.fst,
                  column2 := prs.map Prod.snd } r6

/-- `and_join = "&" j:join++"&"`. -/
def and_joinP (l : List Char) : PRes (List Join) :=
  pbind (tagP ['&'] l) fun _ r1 => sepBy1P joinP ['&'] r1

/-- `having = "having" "=" f:filter { vec![f] }`. -/
def havingP (l : List Char) : PRes (List Filter) :=
  pbind (tagP (toChars "having") l) fun _ r1 =>
    pbind (tagP ['='] r1) fun _ r2 =>
      pbind (filterP r2) fun f r3 => .ok [f] r3

/-- `page = "page" "=" p:number`. -/
def pageP (l : List Char) : PRes Int :=
  pbind (tagP (toChars "page") l) fun _ r1 =>
    pbind (tagP ['='] r1) fun _ r2 => numberP r2

/-- `page_size = "page_size" "=" ps:number`. -/
def page_sizeP (l : List Char) : PRes Int :=
  pbind (tagP (toChars "page_size") l) fun _ r1 =>
    pbind (tagP ['='] r1) fun _ r2 => numberP r2

/-- `and_page_size = "&" ps:page_size`. -/
def and_page_sizeP (l : List Char) : PRes Int :=
  pbind (tagP ['&'] l) fun _ r1 => page_sizeP r1

/-- `and_page = "&"? p:page`. -/
def and_pageP (l : List Char) : PRes Int :=
  pbind (poptP (tagP ['&']) l) fun _ r1 => pageP r1

/-- `limit = "limit" "=" l:number`. -/
def limitP (l : List Char) : PRes Int :=
  pbind (tagP (toChars "limit") l) fun _ r1 =>
    pbind (tagP ['='] r1) fun _ r2 => numberP r2

/-- `offset = "offset" "=" o:number`. -/
def offsetP (l : List Char) : PRes Int :=
  pbind (tagP (toChars "offset") l) fun _ r1 =>
    pbind (tagP ['='] r1) fun _ r2 => numberP r2

/-- `and_limit = "&"? l:limit`. -/
def and_limitP (l : List Char) : PRes Int :=
  pbind (poptP (tagP ['&']) l) fun _ r1 => limitP r1

/-- `and_offset = "&" o:offset`. -/
def and_offsetP (l : List Char) : PRes Int :=
  pbind (tagP ['&'] l) fun _ r1 => offsetP r1

/-- `range = p:and_page ps:and_page_size { Page } / l:and_limit
o:and_offset? { Limit }`. -/
def rangeP (l : List Char) : PRes Range :=
  porElse
    (pbind (and_pageP l) fun p r1 =>
      pbind (and_page_sizeP r1) fun ps r2 =>
        .ok (.Page ⟨p, ps⟩) r2)
    (pbind (and_limitP l) fun lim r1 =>
      pbind (poptP and_offsetP r1) fun o r2 =>
        .ok (.Limit ⟨lim, o⟩) r2)

/-- `and_order_by = "&"? o:order_by`. -/
def and_order_byP (l : List Char) : PRes (List Order) :=
  pbind (poptP (tagP ['&']) l) fun _ r1 => order_byP r1

/-- `and_group_by = "&"? g:group_by`. -/
def and_group_byP (l : List Char) : PRes (List Operand) :=
  pbind (poptP (tagP ['&']) l) fun _ r1 => group_byP r1

/-- `and_having = "&"? h:having`. -/
def and_havingP (l : List Char) : PRes (List Filter) :=
  pbind (poptP (tagP ['&']) l) fun _ r1 => havingP r1

/-- `and_equations = "&"? e:equation ** "&"`. -/
def and_equationsP (l : List Char) : PRes (List Equation) :=
  pbind (poptP (tagP ['&']) l) fun _ r1 => sepBy0P equationP ['&'] r1

/-- `and_filters = "&"? f:filter { vec![f] }`. -/
def and_filtersP (l : List Char) : PRes (List Filter) :=
  pbind (poptP (tagP ['&']) l) fun _ r1 =>
    pbind (filterP r1) fun f r2 => .ok [f] r2

/-- `params = f:and_filters? e:and_equations?` with `None → vec![]`. -/
def paramsP (l : List Char) : PRes Params :=
  pbind (poptP and_filtersP l) fun f r1 =>
    pbind (poptP and_equationsP r1) fun e r2 =>
      .ok { filters := f.getD [], equations := e.getD [] } r2

/-- `query = fr:from? j:and_join? f:and_filters? g:and_group_by?
h:and_having? o:and_order_by? r:range? e:and_equations?` with
`None → vec![]` for each list clause. -/
def queryP (l : List Char) : PRes Query :=
  pbind (poptP fromP l) fun fr r1 =>
    pbind (poptP and_joinP r1) fun j r2 =>
      pbind (poptP and_filtersP r2) fun f r3 =>
        pbind (poptP and_group_byP r3) fun g r4 =>
          pbind (poptP and_havingP r4) fun h r5 =>
            pbind (poptP and_order_byP r5) fun o r6 =>
              pbind (poptP rangeP r6) fun ra r7 =>
                pbind (poptP and_equationsP r7) fun e r8 =>
                  .ok
                    { from_ := fr.getD [],
                      join := j.getD [],
                      filters := f.getD [],
                      group_by := g.getD [],
                      having := h.getD [],
                      order_by := o.getD [],
                      range := ra,
                      equations := e.getD [] } r8

/-! ## Symbolic evaluation helpers -/

/-- Whether the first character (if any) satisfies `p`. -/
def headSat (p : Char → Bool) : List Char → Bool
  | [] => false
  | x :: _ => p x

theorem takeWhile_append_run {p : Char → Bool} :
    ∀ (d rest : List Char), (∀ c ∈ d, p c = true) → headSat p rest = false →
      (d ++ rest).takeWhile p = d ∧ (d ++ rest).dropWhile p = rest := by
  intro d
  induction d with
  | nil =>
    intro rest hd hr
    cases rest with
    | nil => simp
    | cons x t =>
      simp only [headSat] at hr
      simp [List.takeWhile_cons, List.dropWhile_cons, hr]
  | cons a d ih =>
    intro rest hd hr
    have ha : p a = true := hd a (by simp)
    have := ih rest (fun c hc => hd c (by simp [hc])) hr
    simp [List.takeWhile_cons, List.dropWhile_cons, ha, this.1, this.2]

theorem nameP_run {d : List Char} (rest : List Char) (hd : d ≠ [])
    (hall : ∀ c ∈ d, isNameChar c = true) (hr : headSat isNameChar rest = false) :
    nameP (d ++ rest) = .ok d rest := by
  obtain ⟨h1, h2⟩ := takeWhile_append_run d rest hall hr
  unfold nameP
  rw [h1, h2]
  cases d with
  | nil => exact absurd rfl hd
  | cons a t => rfl

theorem numberP_run {d rest : List Char} (hd : d ≠ [])
    (hall : ∀ c ∈ d, c.isDigit = true) (hr : headSat Char.isDigit rest = false)
    (hm : digitsToNat d ≤ i64Max) :
    numberP (d ++ rest) = .ok (Int.ofNat (digitsToNat d)) rest := by
  obtain ⟨h1, h2⟩ := takeWhile_append_run d rest hall hr
  unfold numberP
  rw [h1, h2]
  cases d with
  | nil => exact absurd rfl hd
  | cons a t =>
    show (if digitsToNat (a :: t) ≤ i64Max then
        PRes.ok (Int.ofNat (digitsToNat (a :: t))) rest else .panic) =
      .ok (Int.ofNat (digitsToNat (a :: t))) rest
    rw [if_pos hm]

theorem tagP_run (ts rest : List Char) : tagP ts (ts ++ rest) = .ok () rest := by
  unfold tagP
  rw [if_pos ⟨rest, rfl⟩, List.drop_left]

theorem tagP_ne_head {x y : Char} {xs t : List Char} (h : y ≠ x) :
    tagP (x :: xs) (y :: t) = .fail := by
  unfold tagP
  rw [if_neg]
  rintro ⟨u, hu⟩
  simp at hu
  exact h hu.1.symm

theorem tagP_nil {x : Char} {xs : List Char} : tagP (x :: xs) [] = .fail := by
  unfold tagP
  rw [if_neg]
  rintro ⟨u, hu⟩
  simp at hu

theorem tagP_eq_fail {ts l : List Char} : tagP ts l = .fail ↔ ¬(ts <+: l) := by
  unfold tagP
  split <;> simp [*]

theorem tagP_ne_panic {ts l : List Char} : tagP ts l ≠ .panic := by
  unfold tagP
  split <;> simp

/-! ## C3 — longest-match equality tokens -/

/-- C3: the equality-token parser is longest-match on the extended forms:
`lt ↦ LT`, `lte ↦ LTE`, `gt ↦ GT`, `gte ↦ GTE`, `is ↦ IS`,
`is_not ↦ IS_NOT`, and `not_in ↦ NOT_IN` (never truncated to `IN`). -/
theorem c3_equality_longest_match :
    pubRun equalityP (toChars "lt") = .ok .LT ∧
    pubRun equalityP (toChars "lte") = .ok .LTE ∧
    pubRun equalityP (toChars "gt") = .ok .GT ∧
    pubRun equalityP (toChars "gte") = .ok .GTE ∧
    pubRun equalityP (toChars "is") = .ok .IS ∧
    pubRun equalityP (toChars "is_not") = .ok .IS_NOT ∧
    pubRun equalityP (toChars "not_in") = .ok .NOT_IN :=
  ⟨rfl, rfl, rfl, rfl, rfl, rfl, rfl⟩

/-! ## C9 — the `number` rule panics instead of failing on i64 overflow -/

/-- C9 (code bug): the spec says a numeric literal whose digits do not
convert to a valid integer is a parse failure, but `number`'s action
`match_str.parse::<i64>().unwrap()` panics on `9223372036854775808`
(`i64::MAX + 1`), and the panic is reachable from the `range` rule via
`limit=`/`page=`; in-range digits convert normally. -/
theorem c9_number_overflow_panics :
    numberP (toChars "9223372036854775808") = .panic ∧
    pubRun rangeP (toChars "limit=9223372036854775808") = .panic ∧
    pubRun rangeP (toChars "page=9223372036854775808&page_size=1") = .panic ∧
    pubRun numberP (toChars "9223372036854775807") = .ok 9223372036854775807 :=
  ⟨rfl, rfl, rfl, rfl⟩

/-! ## C10 — both assembler entry points accept the empty string -/

/-- C10: every top-level clause is optional, so `query("")` succeeds with
all sequences empty and `range = None`, and `params("")` succeeds with
empty filters and equations. -/
theorem c10_empty_input_ok :
    pubRun queryP (toChars "") =
      .ok { from_ := [], join := [], filters := [], group_by := [],
            having := [], order_by := [], range := none, equations := [] } ∧
    pubRun paramsP (toChars "") = .ok { filters := [], equations := [] } :=
  ⟨rfl, rfl⟩

theorem poptP_fail {α : Type} {p : List Char → PRes α} {l : List Char}
    (h : p l = .fail) : poptP p l = .ok none l := by
  unfold poptP
  rw [h]

theorem poptP_ok {α : Type} {p : List Char → PRes α} {l : List Char}
    {a : α} {r : List Char} (h : p l = .ok a r) :
    poptP p l = .ok (some a) r := by
  unfold poptP
  rw [h]

/-! ## C5 — the `range` rule -/

theorem pageP_run {d : List Char} (rest : List Char) (hd : d ≠ [])
    (hall : ∀ c ∈ d, c.isDigit = true) (hr : headSat Char.isDigit rest = false)
    (hm : digitsToNat d ≤ i64Max) :
    pageP (toChars "page=" ++ (d ++ rest)) =
      .ok (Int.ofNat (digitsToNat d)) rest := by
  unfold pageP
  rw [show toChars "page=" ++ (d ++ rest) =
    toChars "page" ++ ('=' :: (d ++ rest)) from rfl, tagP_run]
  simp only [pbind_ok]
  rw [show ('=' : Char) :: (d ++ rest) = ['='] ++ (d ++ rest) from rfl, tagP_run]
  simp only [pbind_ok]
  exact numberP_run hd hall hr hm

theorem page_sizeP_run {d : List Char} (rest : List Char) (hd : d ≠ [])
    (hall : ∀ c ∈ d, c.isDigit = true) (hr : headSat Char.isDigit rest = false)
    (hm : digitsToNat d ≤ i64Max) :
    page_sizeP (toChars "page_size=" ++ (d ++ rest)) =
      .ok (Int.ofNat (digitsToNat d)) rest := by
  unfold page_sizeP
  rw [show toChars "page_size=" ++ (d ++ rest) =
    toChars "page_size" ++ ('=' :: (d ++ rest)) from rfl, tagP_run]
  simp only [pbind_ok]
  rw [show ('=' : Char) :: (d ++ rest) = ['='] ++ (d ++ rest) from rfl, tagP_run]
  simp only [pbind_ok]
  exact numberP_run hd hall hr hm

theorem limitP_run {d : List Char} (rest : List Char) (hd : d ≠ [])
    (hall : ∀ c ∈ d, c.isDigit = true) (hr : headSat Char.isDigit rest = false)
    (hm : digitsToNat d ≤ i64Max) :
    limitP (toChars "limit=" ++ (d ++ rest)) =
      .ok (Int.ofNat (digitsToNat d)) rest := by
  unfold limitP
  rw [show toChars "limit=" ++ (d ++ rest) =
    toChars "limit" ++ ('=' :: (d ++ rest)) from rfl, tagP_run]
  simp only [pbind_ok]
  rw [show ('=' : Char) :: (d ++ rest) = ['='] ++ (d ++ rest) from rfl, tagP_run]
  simp only [pbind_ok]
  exact numberP_run hd hall hr hm

theorem offsetP_run {d : List Char} (rest : List Char) (hd : d ≠ [])
    (hall : ∀ c ∈ d, c.isDigit = true) (hr : headSat Char.isDigit rest = false)
    (hm : digitsToNat d ≤ i64Max) :
    offsetP (toChars "offset=" ++ (d ++ rest)) =
      .ok (Int.ofNat (digitsToNat d)) rest := by
  unfold offsetP
  rw [show toChars "offset=" ++ (d ++ rest) =
    toChars "offset" ++ ('=' :: (d ++ rest)) from rfl, tagP_run]
  simp only [pbind_ok]
  rw [show ('=' : Char) :: (d ++ rest) = ['='] ++ (d ++ rest) from rfl, tagP_run]
  simp only [pbind_ok]
  exact numberP_run hd hall hr hm

/-- C5: `range` returns `Page{page, page_size}` for
`page=<int>&page_size=<int>` and `Limit{limit, offset}` for `limit=<int>`
with an optional `&offset=<int>` (`offset` is `None` when absent), while
`page=<int>` alone is a parse failure, never a defaulted `Page`; includes
the spec's three concrete examples. -/
theorem c5_range_forms (d1 d2 : List Char)
    (h1 : d1 ≠ []) (h1a : ∀ c ∈ d1, c.isDigit = true)
    (h1m : digitsToNat d1 ≤ i64Max)
    (h2 : d2 ≠ []) (h2a : ∀ c ∈ d2, c.isDigit = true)
    (h2m : digitsToNat d2 ≤ i64Max) :
    pubRun rangeP (toChars "page=" ++ (d1 ++ ('&' :: (toChars "page_size=" ++ d2)))) =
      .ok (.Page ⟨Int.ofNat (digitsToNat d1), Int.ofNat (digitsToNat d2)⟩) ∧
    pubRun rangeP (toChars "limit=" ++ d1) =
      .ok (.Limit ⟨Int.ofNat (digitsToNat d1), none⟩) ∧
    pubRun rangeP (toChars "limit=" ++ (d1 ++ ('&' :: (toChars "offset=" ++ d2)))) =
      .ok (.Limit ⟨Int.ofNat (digitsToNat d1), some (Int.ofNat (digitsToNat d2))⟩) ∧
    pubRun rangeP (toChars "page=" ++ d1) = .fail ∧
    pubRun rangeP (toChars "limit=100&offset=25") = .ok (.Limit ⟨100, some 25⟩) ∧
    pubRun rangeP (toChars "page=2&page_size=20") = .ok (.Page ⟨2, 20⟩) ∧
    pubRun rangeP (toChars "page=2") = .fail := by
  have hpageSize := page_sizeP_run [] h2 h2a rfl h2m
  rw [List.append_nil] at hpageSize
  have hoffset := offsetP_run [] h2 h2a rfl h2m
  rw [List.append_nil] at hoffset
  have hoffFail : and_offsetP [] = .fail := by
    unfold and_offsetP
    rw [tagP_nil]
    rfl
  refine ⟨?_, ?_, ?_, ?_, rfl, rfl, rfl⟩
  · -- page=<d1>&page_size=<d2>
    have hpage := pageP_run ('&' :: (toChars "page_size=" ++ d2))
      h1 h1a rfl h1m
    have hamp : tagP ['&'] (toChars "page=" ++ (d1 ++ ('&' :: (toChars "page_size=" ++ d2)))) = .fail := by
      rw [show toChars "page=" ++ (d1 ++ ('&' :: (toChars "page_size=" ++ d2))) =
        'p' :: (toChars "age=" ++ (d1 ++ ('&' :: (toChars "page_size=" ++ d2)))) from rfl]
      exact tagP_ne_head (by decide)
    have hrange : rangeP (toChars "page=" ++ (d1 ++ ('&' :: (toChars "page_size=" ++ d2)))) =
        .ok (.Page ⟨Int.ofNat (digitsToNat d1), Int.ofNat (digitsToNat d2)⟩) [] := by
      unfold rangeP and_pageP and_page_sizeP
      rw [poptP_fail hamp]
      simp only [pbind_ok]
      rw [hpage]
      simp only [pbind_ok]
      rw [show ('&' : Char) :: (toChars "page_size=" ++ d2) =
        ['&'] ++ (toChars "page_size=" ++ d2) from rfl, tagP_run]
      simp only [pbind_ok]
      rw [hpageSize]
      rfl
    simp [pubRun, hrange]
  · -- limit=<d1>
    have hlimit := limitP_run [] h1 h1a rfl h1m
    rw [List.append_nil] at hlimit
    have hamp : tagP ['&'] (toChars "limit=" ++ d1) = .fail := by
      rw [show toChars "limit=" ++ d1 = 'l' :: (toChars "imit=" ++ d1) from rfl]
      exact tagP_ne_head (by decide)
    have hpageTag : tagP (toChars "page") (toChars "limit=" ++ d1) = .fail := by
      rw [show toChars "page" = 'p' :: toChars "age" from rfl,
        show toChars "limit=" ++ d1 = 'l' :: (toChars "imit=" ++ d1) from rfl]
      exact tagP_ne_head (by decide)
    have hrange : rangeP (toChars "limit=" ++ d1) =
        .ok (.Limit ⟨Int.ofNat (digitsToNat d1), none⟩) [] := by
      unfold rangeP and_pageP and_limitP pageP
      rw [poptP_fail hamp]
      simp only [pbind_ok]
      rw [hpageTag]
      simp only [pbind_fail, porElse_fail]
      rw [hlimit]
      simp only [pbind_ok]
      rw [poptP_fail hoffFail]
      rfl
    simp [pubRun, hrange]
  · -- limit=<d1>&offset=<d2>
    have hlimit := limitP_run ('&' :: (toChars "offset=" ++ d2))
      h1 h1a rfl h1m
    have hamp : tagP ['&'] (toChars "limit=" ++ (d1 ++ ('&' :: (toChars "offset=" ++ d2)))) = .fail := by
      rw [show toChars "limit=" ++ (d1 ++ ('&' :: (toChars "offset=" ++ d2))) =
        'l' :: (toChars "imit=" ++ (d1 ++ ('&' :: (toChars "offset=" ++ d2)))) from rfl]
      exact tagP_ne_head (by decide)
    have hpageTag : tagP (toChars "page") (toChars "limit=" ++ (d1 ++ ('&' :: (toChars "offset=" ++ d2)))) = .fail := by
      rw [show toChars "page" = 'p' :: toChars "age" from rfl,
        show toChars "limit=" ++ (d1 ++ ('&' :: (toChars "offset=" ++ d2))) =
          'l' :: (toChars "imit=" ++ (d1 ++ ('&' :: (toChars "offset=" ++ d2)))) from rfl]
      exact tagP_ne_head (by decide)
    have hoff : and_offsetP ('&' :: (toChars "offset=" ++ d2)) =
        .ok (Int.ofNat (digitsToNat d2)) [] := by
      unfold and_offsetP
      rw [show ('&' : Char) :: (toChars "offset=" ++ d2) =
        ['&'] ++ (toChars "offset=" ++ d2) from rfl, tagP_run]
      simp only [pbind_ok]
      exact hoffset
    have hrange : rangeP (toChars "limit=" ++ (d1 ++ ('&' :: (toChars "offset=" ++ d2)))) =
        .ok (.Limit ⟨Int.ofNat (digitsToNat d1), some (Int.ofNat (digitsToNat d2))⟩) [] := by
      unfold rangeP and_pageP and_limitP pageP
      rw [poptP_fail hamp]
      simp only [pbind_ok]
      rw [hpageTag]
      simp only [pbind_fail, porElse_fail]
      rw [hlimit]
      simp only [pbind_ok]
      rw [poptP_ok hoff]
      rfl
    simp [pubRun, hrange]
  · -- page=<d1> alone fails
    have hpage := pageP_run [] h1 h1a rfl h1m
    rw [List.append_nil] at hpage
    have hamp : tagP ['&'] (toChars "page=" ++ d1) = .fail := by
      rw [show toChars "page=" ++ d1 = 'p' :: (toChars "age=" ++ d1) from rfl]
      exact tagP_ne_head (by decide)
    have hlimitTag : tagP (toChars "limit") (toChars "page=" ++ d1) = .fail := by
      rw [show toChars "limit" = 'l' :: toChars "imit" from rfl,
        show toChars "page=" ++ d1 = 'p' :: (toChars "age=" ++ d1) from rfl]
      exact tagP_ne_head (by decide)
    have hrange : rangeP (toChars "page=" ++ d1) = .fail := by
      unfold rangeP and_pageP and_page_sizeP and_limitP limitP
      rw [poptP_fail hamp]
      simp only [pbind_ok]
      rw [hpage]
      simp only [pbind_ok]
      rw [tagP_nil]
      simp only [pbind_fail, porElse_fail]
      rw [hlimitTag]
      rfl
    simp [pubRun, hrange]

/-- C5 witness: the general clauses instantiated at concrete digits. -/
theorem c5_range_forms_witness :
    pubRun rangeP (toChars "page=" ++ (toChars "7" ++ ('&' :: (toChars "page_size=" ++ toChars "31")))) =
      .ok (.Page ⟨Int.ofNat (digitsToNat (toChars "7")),
        Int.ofNat (digitsToNat (toChars "31"))⟩) ∧
    pubRun rangeP (toChars "limit=" ++ toChars "7") =
      .ok (.Limit ⟨Int.ofNat (digitsToNat (toChars "7")), none⟩) ∧
    pubRun rangeP (toChars "limit=" ++ (toChars "7" ++ ('&' :: (toChars "offset=" ++ toChars "31")))) =
      .ok (.Limit ⟨Int.ofNat (digitsToNat (toChars "7")),
        some (Int.ofNat (digitsToNat (toChars "31")))⟩) ∧
    pubRun rangeP (toChars "page=" ++ toChars "7") = .fail ∧
    pubRun rangeP (toChars "limit=100&offset=25") = .ok (.Limit ⟨100, some 25⟩) ∧
    pubRun rangeP (toChars "page=2&page_size=20") = .ok (.Page ⟨2, 20⟩) ∧
    pubRun rangeP (toChars "page=2") = .fail :=
  c5_range_forms (toChars "7") (toChars "31") (by decide) (by decide)
    (by decide) (by decide) (by decide) (by decide)

/-! ## C6 — the join invariant -/

theorem rep1F_ok_ne_nil {α : Type} {p : List Char → PRes α} :
    ∀ {fuel : Nat} {l : List Char} {as : List α} {r : List Char},
      rep1F p fuel l = .ok as r → as ≠ [] := by
  intro fuel l as r h
  cases fuel with
  | zero => exact absurd h (by simp [rep1F])
  | succ f =>
    unfold rep1F at h
    obtain ⟨a, m, hp, hm⟩ := pbind_eq_ok.mp h
    split at hm
    next => cases hm; simp
    next => cases hm; simp
    next => cases hm

/-- C6: every `Join` the `join` rule returns has `column1` and `column2`
of equal positive length (one entry per parsed `&on=` pair), and an input
with a `join=` table but no `&on=` pair fails to parse. -/
theorem c6_join_parallel_columns :
    (∀ (l : List Char) (j : Join) (r : List Char), joinP l = .ok j r →
      j.column1.length = j.column2.length ∧ 0 < j.column1.length) ∧
    pubRun joinP (toChars "join=person") = .fail := by
  constructor
  · intro l j r h
    unfold joinP at h
    obtain ⟨mjt, r1, h1, h⟩ := pbind_eq_ok.mp h
    obtain ⟨u2, r2, h2, h⟩ := pbind_eq_ok.mp h
    obtain ⟨u3, r3, h3, h⟩ := pbind_eq_ok.mp h
    obtain ⟨u4, r4, h4, h⟩ := pbind_eq_ok.mp h
    obtain ⟨t, r5, h5, h⟩ := pbind_eq_ok.mp h
    obtain ⟨prs, r6, h6, h⟩ := pbind_eq_ok.mp h
    cases h
    unfold rep1P at h6
    have hne : prs ≠ [] := rep1F_ok_ne_nil h6
    constructor
    · simp [Join.column1, Join.column2]
    · cases prs with
      | nil => exact absurd rfl hne
      | cons x xs => simp [Join.column1]
  · rfl

/-- C6 witness: the invariant read off a concrete successful join. -/
theorem c6_join_parallel_columns_witness :
    ({ modifier := none, join_type := none,
       table := Operand.Column (toChars "person"),
       column1 := [['a']], column2 := [['b']] } : Join).column1.length =
      ({ modifier := none, join_type := none,
         table := Operand.Column (toChars "person"),
         column1 := [['a']], column2 := [['b']] } : Join).column2.length ∧
    0 < ({ modifier := none, join_type := none,
           table := Operand.Column (toChars "person"),
           column1 := [['a']], column2 := [['b']] } : Join).column1.length :=
  c6_join_parallel_columns.1 (toChars "join=person&on=a=b") _ [] rfl

/-! ## C2 — the `!direction` lookahead on a dotted column suffix -/

theorem tagP_cons_self (x : Char) (xs : List Char) :
    tagP [x] (x :: xs) = .ok () xs := tagP_run [x] xs

theorem directionP_fail_iff {c : List Char} :
    directionP c = .fail ↔
      ¬(toChars "asc" <+: c) ∧ ¬(toChars "desc" <+: c) := by
  unfold directionP tagP
  by_cases h1 : toChars "asc" <+: c <;> by_cases h2 : toChars "desc" <+: c <;>
    simp [h1, h2, pmap, porElse]

theorem directionP_ne_panic {c : List Char} : directionP c ≠ .panic := by
  intro h
  unfold directionP at h
  cases h1 : tagP (toChars "asc") c <;> rw [h1] at h
  · simp [pmap, porElse] at h
  · cases h2 : tagP (toChars "desc") c <;> rw [h2] at h
    · simp [pmap, porElse] at h
    · simp [pmap, porElse] at h
    · exact tagP_ne_panic h2
  · exact tagP_ne_panic h1

theorem column_name_dir_ok {t c : List Char} {d : Direction} {r : List Char}
    (hname1 : nameP (t ++ '.' :: c) = .ok t ('.' :: c))
    (hd : directionP c = .ok d r) :
    column_nameP (t ++ '.' :: c) = .ok t ('.' :: c) := by
  unfold column_nameP
  rw [hname1]
  simp only [pbind_ok]
  rw [tagP_cons_self]
  simp only [pbind_ok]
  rw [hd]
  rfl

theorem column_name_dir_fail {t c : List Char}
    (hname1 : nameP (t ++ '.' :: c) = .ok t ('.' :: c))
    (hname2 : nameP c = .ok c [])
    (hd : directionP c = .fail) :
    column_nameP (t ++ '.' :: c) = .ok (t ++ '.' :: c) [] := by
  unfold column_nameP
  rw [hname1]
  simp only [pbind_ok]
  rw [tagP_cons_self]
  simp only [pbind_ok]
  rw [hd, hname2]
  rfl

/-- C2 (amended): in a dotted name `t.c` the suffix is accepted as part of
a qualified column exactly when the `direction` parser fails at `c`, i.e.
when `c` does not start with `asc` or `desc` (a prefix test, not equality
with the keywords); `parse_operand("person.age")` yields
`Column("person.age")` and `parse_operand("age.asc")` fails. -/
theorem c2_dotted_suffix_lookahead :
    (∀ t c : List Char, t ≠ [] → (∀ ch ∈ t, isNameChar ch = true) →
      c ≠ [] → (∀ ch ∈ c, isNameChar ch = true) →
      (column_nameP (t ++ '.' :: c) = .ok (t ++ '.' :: c) [] ↔
        ¬(toChars "asc" <+: c) ∧ ¬(toChars "desc" <+: c))) ∧
    pubRun operandP (toChars "person.age") =
      .ok (.Column (toChars "person.age")) ∧
    pubRun operandP (toChars "age.asc") = .fail := by
  refine ⟨?_, rfl, rfl⟩
  intro t c ht hta hc hca
  have hname1 : nameP (t ++ '.' :: c) = .ok t ('.' :: c) :=
    nameP_run ('.' :: c) ht hta rfl
  have hname2 : nameP c = .ok c [] := by
    have := nameP_run [] hc hca rfl
    rwa [List.append_nil] at this
  constructor
  · intro hok
    cases hdir : directionP c with
    | ok d r =>
      rw [column_name_dir_ok hname1 hdir] at hok
      injection hok with h1 h2
      cases h2
    | fail => exact directionP_fail_iff.mp hdir
    | panic => exact absurd hdir directionP_ne_panic
  · intro hpre
    exact column_name_dir_fail hname1 hname2 (directionP_fail_iff.mpr hpre)

/-- C2 witness: the amended equivalence at `t = person`, `c = age`. -/
theorem c2_dotted_suffix_lookahead_witness :
    column_nameP (toChars "person" ++ '.' :: toChars "age") =
      .ok (toChars "person" ++ '.' :: toChars "age") [] ↔
      ¬(toChars "asc" <+: toChars "age") ∧
      ¬(toChars "desc" <+: toChars "age") :=
  c2_dotted_suffix_lookahead.1 (toChars "person") (toChars "age")
    (by decide) (by decide) (by decide) (by decide)

/-- C2 counterexample: `ascx` is not one of the reserved keywords `asc` or
`desc`, yet `person.ascx` does not parse as the qualified column
`Column("person.ascx")`: the lookahead rejects any suffix that merely
starts with a direction keyword, so `column_name` stops at `person` and
the full operand parse fails. -/
theorem c2_reserved_keyword_iff_false :
    toChars "ascx" ≠ toChars "asc" ∧ toChars "ascx" ≠ toChars "desc" ∧
    pubRun operandP (toChars "person.ascx") = .fail ∧
    column_nameP (toChars "person.ascx") =
      .ok (toChars "person") (toChars ".ascx") :=
  ⟨by decide, by decide, rfl, rfl⟩

/-! ## C1 — the filter/connector chain shape -/

theorem nameP_ok_head {l v r : List Char} (h : nameP l = .ok v r) :
    ∃ x t2, l = x :: t2 ∧ isNameChar x = true := by
  obtain ⟨hv, hne, -⟩ := nameP_ok_iff.mp h
  cases l with
  | nil => simp at hv; exact absurd hv hne
  | cons x t2 =>
    by_cases hx : isNameChar x
    · exact ⟨x, t2, rfl, hx⟩
    · rw [List.takeWhile_cons, if_neg (by simp [hx])] at hv
      exact absurd hv hne

theorem isNameChar_of_isDigit {ch : Char} (h : ch.isDigit = true) :
    isNameChar ch = true := by
  simp [isNameChar, Char.isAlphanum, h]

theorem operandP_ok_head {l : List Char} {v : Operand} {r : List Char}
    (h : operandP l = .ok v r) :
    ∃ x t2, l = x :: t2 ∧ isNameChar x = true := by
  rw [operandP_eq] at h
  rcases porElse_eq_ok.mp h with h1 | ⟨-, h⟩
  · obtain ⟨a, ha, -⟩ := pmap_eq_ok.mp h1
    rw [functionP_eq] at ha
    obtain ⟨nm, r1, hname, -⟩ := pbind_eq_ok.mp ha
    exact nameP_ok_head hname
  rcases porElse_eq_ok.mp h with h1 | ⟨-, h⟩
  · obtain ⟨a, ha, -⟩ := pmap_eq_ok.mp h1
    unfold booleanP at ha
    rcases porElse_eq_ok.mp ha with h2 | ⟨-, h2⟩ <;>
      · obtain ⟨u, hu, -⟩ := pmap_eq_ok.mp h2
        have hl := tagP_ok_iff.mp hu
        subst hl
        exact ⟨_, _, rfl, by decide⟩
  rcases porElse_eq_ok.mp h with h1 | ⟨-, h⟩
  · obtain ⟨a, ha, -⟩ := pmap_eq_ok.mp h1
    obtain ⟨hne, -, -, -⟩ := numberP_ok_iff.mp ha
    cases l with
    | nil => simp at hne
    | cons x t2 =>
      by_cases hx : x.isDigit
      · exact ⟨x, t2, rfl, isNameChar_of_isDigit hx⟩
      · rw [List.takeWhile_cons, if_neg (by simp [hx])] at hne
        exact absurd rfl hne
  · obtain ⟨a, ha, -⟩ := pmap_eq_ok.mp h
    unfold column_nameP at ha
    rcases porElse_eq_ok.mp ha with h1 | ⟨-, h1⟩
    · obtain ⟨t0, r1, hname, -⟩ := pbind_eq_ok.mp h1
      exact nameP_ok_head hname
    · exact nameP_ok_head h1

theorem conditionP_ok_head {l : List Char} {v : Condition} {r : List Char}
    (h : conditionP l = .ok v r) :
    ∃ x t2, l = x :: t2 ∧ isNameChar x = true := by
  unfold conditionP at h
  obtain ⟨a, m, ha, -⟩ := pbind_eq_ok.mp h
  exact operandP_ok_head ha

/-- The character rendering of a connector. -/
def connChar : Connector → Char
  | .AND => '&'
  | .OR => '|'

theorem connectorP_cons (k : Connector) (x : List Char) :
    connectorP (connChar k :: x) = .ok k x := by
  cases k
  · show connectorP ('&' :: x) = .ok .AND x
    unfold connectorP
    rw [tagP_cons_self]
    rfl
  · show connectorP ('|' :: x) = .ok .OR x
    unfold connectorP
    rw [tagP_ne_head (by decide), tagP_cons_self]
    rfl

/-- The flat input `condition₁ CONN₁ condition₂ CONN₂ …` assembled from a
head condition string and (connector, condition-string) pairs. -/
def chainInput : List Char → List (Connector × List Char) → List Char
  | s, [] => s
  | s, (k, t) :: ps => s ++ connChar k :: chainInput t ps

/-- The claim's `Rᵢ`: `{connector: CONNᵢ₋₁, condition: conditionᵢ,
sub_filters: [Rᵢ₊₁]}`, the last node with empty `sub_filters`. -/
def subChain : Connector → Condition → List (Connector × Condition) → Filter
  | k, c, [] => .mk (some k) c []
  | k, c, (k2, c2) :: rest => .mk (some k) c [subChain k2 c2 rest]

/-- The claim's whole expected tree: root `{connector: None, condition:
condition₁, sub_filters: [R₂]}`. -/
def chainFilter : Condition → List (Connector × Condition) → Filter
  | c, [] => .mk none c []
  | c, (k, c2) :: rest => .mk none c [subChain k c2 rest]

/-- A filter is a single-child chain: every node has at most one
sub-filter and every non-root node carries a connector. -/
def singleChain : Filter → Bool
  | .mk _ _ [] => true
  | .mk _ _ [f] => f.connector.isSome && singleChain f
  | .mk _ _ (_ :: _ :: _) => false

theorem subChain_chainFilter (k : Connector) (c : Condition)
    (cs : List (Connector × Condition)) :
    Filter.mk (some k) ((chainFilter c cs).condition)
      ((chainFilter c cs).sub_filters) = subChain k c cs := by
  cases cs with
  | nil => rfl
  | cons p rest => obtain ⟨k2, c2⟩ := p; rfl

theorem subChain_props :
    ∀ (cs : List (Connector × Condition)) (k : Connector) (c : Condition),
      (subChain k c cs).connector = some k ∧
      singleChain (subChain k c cs) = true := by
  intro cs
  induction cs with
  | nil =>
    intro k c
    exact ⟨rfl, by simp [subChain, singleChain]⟩
  | cons p rest ih =>
    intro k c
    obtain ⟨k2, c2⟩ := p
    refine ⟨rfl, ?_⟩
    have h2 := ih k2 c2
    simp [subChain, singleChain, h2.1, h2.2]

/-- The positioned-parse hypothesis: each `conditionᵢ` of the flat chain
parses as a condition consuming exactly its own segment, leaving the next
connector (or nothing, for the last one). -/
def CondsAt : List Char → List (Connector × List Char) → Condition →
    List (Connector × Condition) → Prop
  | s, [], c, cs => cs = [] ∧ conditionP s = .ok c []
  | s, (k, t) :: ps, c, cs =>
      conditionP (chainInput s ((k, t) :: ps)) =
        .ok c (connChar k :: chainInput t ps) ∧
      ∃ c2 cs2, cs = (k, c2) :: cs2 ∧ CondsAt t ps c2 cs2

/-- C1: for a flat sequence of parseable conditions joined by connectors,
the `filter` rule succeeds, consumes everything, and returns exactly the
right-nested single-child chain `{connector: None, condition: condition₁,
sub_filters: [R₂]}` with `Rᵢ = {connector: CONNᵢ₋₁, condition:
conditionᵢ, sub_filters: [Rᵢ₊₁]}`; no node has more than one sub-filter
and only the root's connector is `None`. -/
theorem c1_filter_right_nested_chain (s : List Char)
    (ps : List (Connector × List Char)) (c : Condition)
    (cs : List (Connector × Condition)) (h : CondsAt s ps c cs) :
    filterP (chainInput s ps) = .ok (chainFilter c cs) [] ∧
    (chainFilter c cs).connector = none ∧
    singleChain (chainFilter c cs) = true := by
  induction ps generalizing s c cs with
  | nil =>
    obtain ⟨rfl, hcond⟩ := h
    refine ⟨?_, rfl, by simp [chainFilter, singleChain]⟩
    rw [filterP_eq]
    unfold filterAlt1 filterAlt2 filterAlt3
    simp only [chainInput]
    rw [hcond]
    simp only [pbind_ok]
    rw [show connectorP [] = .fail by rfl]
    simp only [pbind_fail, porElse_fail]
    obtain ⟨x, t2, rfl, hx⟩ := conditionP_ok_head hcond
    have hxp : x ≠ '(' := by
      intro he
      subst he
      exact absurd hx (by decide)
    rw [tagP_ne_head hxp]
    simp only [pbind_fail, porElse_fail]
    rfl
  | cons p ps ih =>
    obtain ⟨k, t⟩ := p
    obtain ⟨hcond, c2, cs2, rfl, hrest⟩ := h
    have IH := ih t c2 cs2 hrest
    refine ⟨?_, rfl, ?_⟩
    · rw [filterP_eq]
      unfold filterAlt1
      show porElse (pbind (conditionP (chainInput s ((k, t) :: ps))) _) _ = _
      rw [hcond]
      simp only [pbind_ok]
      rw [connectorP_cons]
      simp only [pbind_ok]
      rw [IH.1]
      simp only [pbind_ok, porElse_ok]
      rw [show (Filter.mk none c
          [Filter.mk (some k) ((chainFilter c2 cs2).condition)
            ((chainFilter c2 cs2).sub_filters)]) =
        Filter.mk none c [subChain k c2 cs2] by rw [subChain_chainFilter]]
      rfl
    · show singleChain (Filter.mk none c [subChain k c2 cs2]) = true
      have hp := subChain_props cs2 k c2
      simp [singleChain, hp.1, hp.2]

/-- C1 witness: the spec's example `a=eq.1&b=eq.2|c=eq.3`. -/
theorem c1_filter_right_nested_chain_witness :
    filterP (toChars "a=eq.1&b=eq.2|c=eq.3") =
      .ok (chainFilter ⟨.Column ['a'], .EQ, .Number 1⟩
        [(.AND, ⟨.Column ['b'], .EQ, .Number 2⟩),
         (.OR, ⟨.Column ['c'], .EQ, .Number 3⟩)]) [] ∧
    (chainFilter ⟨.Column ['a'], .EQ, .Number 1⟩
      [(.AND, ⟨.Column ['b'], .EQ, .Number 2⟩),
       (.OR, ⟨.Column ['c'], .EQ, .Number 3⟩)]).connector = none ∧
    singleChain (chainFilter ⟨.Column ['a'], .EQ, .Number 1⟩
      [(.AND, ⟨.Column ['b'], .EQ, .Number 2⟩),
       (.OR, ⟨.Column ['c'], .EQ, .Number 3⟩)]) = true :=
  c1_filter_right_nested_chain (toChars "a=eq.1")
    [(.AND, toChars "b=eq.2"), (.OR, toChars "c=eq.3")]
    ⟨.Column ['a'], .EQ, .Number 1⟩
    [(.AND, ⟨.Column ['b'], .EQ, .Number 2⟩),
     (.OR, ⟨.Column ['c'], .EQ, .Number 3⟩)]
    ⟨rfl, ⟨.Column ['b'], .EQ, .Number 2⟩, [(.OR, ⟨.Column ['c'], .EQ, .Number 3⟩)],
      rfl, ⟨rfl, ⟨.Column ['c'], .EQ, .Number 3⟩, [], rfl, ⟨rfl, rfl⟩⟩⟩

/-! ## C4 — a closing parenthesis appended to the input

The claim needs: if `filter` consumes all of `s`, then on `( s )` the
inner recursive call sees `s ++ ")"` and must behave as on `s`, leaving
the `")"`.  `extendRes` describes the expected relation between the run
on `l` and on `l ++ [')']`; it holds unconditionally for every
non-recursive rule because `')'` is in no character class and in no
literal except the closing parentheses of `function` and `filter`. -/

/-- Append `')'` to the remainder of a successful result. -/
def extendRes {α : Type} : PRes α → PRes α
  | .ok v r => .ok v (r ++ [')'])
  | .fail => .fail
  | .panic => .panic

@[simp] theorem extendRes_ok {α : Type} (v : α) (r : List Char) :
    extendRes (.ok v r) = .ok v (r ++ [')']) := rfl

@[simp] theorem extendRes_fail {α : Type} :
    extendRes (.fail : PRes α) = .fail := rfl

@[simp] theorem extendRes_panic {α : Type} :
    extendRes (.panic : PRes α) = .panic := rfl

theorem extendRes_porElse {α : Type} (x y : PRes α) :
    extendRes (porElse x y) = porElse (extendRes x) (extendRes y) := by
  cases x <;> rfl

theorem extendRes_pmap {α β : Type} (f : α → β) (x : PRes α) :
    extendRes (pmap f x) = pmap f (extendRes x) := by
  cases x <;> rfl

theorem extendRes_eq_panic {α : Type} {x : PRes α} :
    extendRes x = .panic ↔ x = .panic := by
  cases x <;> simp

theorem takeWhile_append_single (p : Char → Bool) (c : Char)
    (hc : p c = false) :
    ∀ l : List Char, (l ++ [c]).takeWhile p = l.takeWhile p ∧
      (l ++ [c]).dropWhile p = l.dropWhile p ++ [c] := by
  intro l
  induction l with
  | nil => simp [List.takeWhile_cons, List.dropWhile_cons, hc]
  | cons x t ih =>
    by_cases hx : p x <;>
      simp [List.takeWhile_cons, List.dropWhile_cons, hx, ih.1, ih.2]

theorem nameP_ext (l : List Char) :
    nameP (l ++ [')']) = extendRes (nameP l) := by
  obtain ⟨h1, h2⟩ := takeWhile_append_single isNameChar ')' (by decide) l
  unfold nameP
  rw [h1, h2]
  cases hw : l.takeWhile isNameChar <;> simp

theorem numberP_ext (l : List Char) :
    numberP (l ++ [')']) = extendRes (numberP l) := by
  obtain ⟨h1, h2⟩ := takeWhile_append_single Char.isDigit ')' (by decide) l
  unfold numberP
  rw [h1, h2]
  cases hw : l.takeWhile Char.isDigit with
  | nil => simp
  | cons a t =>
    by_cases hm : digitsToNat (a :: t) ≤ i64Max <;> simp [hm]

theorem tagP_ext {ts : List Char} (hts : ')' ∉ ts) (l : List Char) :
    tagP ts (l ++ [')']) = extendRes (tagP ts l) := by
  unfold tagP
  by_cases h : ts <+: l
  · rw [if_pos (h.trans (List.prefix_append l [')'])), if_pos h,
      List.drop_append_of_le_length h.length_le]
    rfl
  · rw [if_neg h, if_neg ?hne]
    · rfl
    case hne =>
      intro hp
      have hlen := hp.length_le
      simp only [List.length_append, List.length_cons, List.length_nil] at hlen
      by_cases hle : ts.length ≤ l.length
      · refine h ?_
        have := List.prefix_iff_eq_take.mp hp
        rw [List.take_append_of_le_length hle] at this
        rw [this]
        exact List.take_prefix _ _
      · have heq : ts.length = l.length + 1 := by omega
        have := hp.eq_of_length (by simpa using heq)
        subst this
        exact hts (by simp)

theorem booleanP_ext (l : List Char) :
    booleanP (l ++ [')']) = extendRes (booleanP l) := by
  unfold booleanP
  rw [tagP_ext (by decide), tagP_ext (by decide),
    extendRes_porElse, extendRes_pmap, extendRes_pmap]

theorem directionP_ext (l : List Char) :
    directionP (l ++ [')']) = extendRes (directionP l) := by
  unfold directionP
  rw [tagP_ext (by decide), tagP_ext (by decide),
    extendRes_porElse, extendRes_pmap, extendRes_pmap]

theorem connectorP_ext (l : List Char) :
    connectorP (l ++ [')']) = extendRes (connectorP l) := by
  unfold connectorP
  rw [tagP_ext (by decide), tagP_ext (by decide),
    extendRes_porElse, extendRes_pmap, extendRes_pmap]

theorem ltBranch_ext (l : List Char) :
    ltBranch (l ++ [')']) = extendRes (ltBranch l) := by
  unfold ltBranch
  rw [tagP_ext (by decide)]
  cases h : tagP (toChars "lt") l with
  | ok u m =>
    simp only [extendRes_ok, pbind_ok]
    rw [tagP_ext (by decide)]
    cases h2 : tagP (toChars "e") m <;> simp
  | fail => simp
  | panic => simp

theorem gtBranch_ext (l : List Char) :
    gtBranch (l ++ [')']) = extendRes (gtBranch l) := by
  unfold gtBranch
  rw [tagP_ext (by decide)]
  cases h : tagP (toChars "gt") l with
  | ok u m =>
    simp only [extendRes_ok, pbind_ok]
    rw [tagP_ext (by decide)]
    cases h2 : tagP (toChars "e") m <;> simp
  | fail => simp
  | panic => simp

theorem isBranch_ext (l : List Char) :
    isBranch (l ++ [')']) = extendRes (isBranch l) := by
  unfold isBranch
  rw [tagP_ext (by decide)]
  cases h : tagP (toChars "is") l with
  | ok u m =>
    simp only [extendRes_ok, pbind_ok]
    rw [tagP_ext (by decide)]
    cases h2 : tagP (toChars "_not") m <;> simp
  | fail => simp
  | panic => simp

theorem equalityP_ext (l : List Char) :
    equalityP (l ++ [')']) = extendRes (equalityP l) := by
  unfold equalityP
  rw [tagP_ext (by decide), tagP_ext (by decide), tagP_ext (by decide),
    tagP_ext (by decide), tagP_ext (by decide), tagP_ext (by decide),
    ltBranch_ext, gtBranch_ext, isBranch_ext]
  simp only [extendRes_porElse, extendRes_pmap]

theorem column_nameP_ext (l : List Char) :
    column_nameP (l ++ [')']) = extendRes (column_nameP l) := by
  unfold column_nameP
  rw [nameP_ext]
  cases h1 : nameP l with
  | fail => simp
  | panic => simp
  | ok t0 r1 =>
    simp only [extendRes_ok, pbind_ok]
    rw [tagP_ext (by decide)]
    cases h2 : tagP ['.'] r1 with
    | fail => simp
    | panic => simp
    | ok u r2 =>
      simp only [extendRes_ok, pbind_ok]
      rw [directionP_ext]
      cases h3 : directionP r2 with
      | ok d rd => simp
      | panic => simp
      | fail =>
        simp only [extendRes_fail]
        rw [nameP_ext]
        cases h4 : nameP r2 <;> simp

/-- A remainder whose head (if any) can neither extend a name run nor
open a function-argument list. -/
def goodHead (r : List Char) : Prop :=
  ∀ y t, r = y :: t → isNameChar y = false ∧ y ≠ '('

theorem goodHead_nil : goodHead [] := by
  intro y t h
  cases h

theorem goodHead_cons {y : Char} (h1 : isNameChar y = false) (h2 : y ≠ '(')
    (r : List Char) : goodHead (y :: r) := by
  intro z t h
  cases h
  exact ⟨h1, h2⟩

theorem nameP_ne_panic {l : List Char} : nameP l ≠ .panic := by
  unfold nameP
  cases h : l.takeWhile isNameChar <;> simp

theorem nameP_cons_fail {x : Char} {t : List Char}
    (hx : isNameChar x = false) : nameP (x :: t) = .fail := by
  unfold nameP
  simp [List.takeWhile_cons, hx]

theorem numberP_cons_fail {x : Char} {t : List Char}
    (hx : x.isDigit = false) : numberP (x :: t) = .fail := by
  unfold numberP
  simp [List.takeWhile_cons, hx]

theorem booleanP_cons_fail {x : Char} {t : List Char}
    (h1 : x ≠ 't') (h2 : x ≠ 'f') : booleanP (x :: t) = .fail := by
  unfold booleanP
  rw [show toChars "true" = 't' :: toChars "rue" from rfl,
    show toChars "false" = 'f' :: toChars "alse" from rfl,
    tagP_ne_head h1, tagP_ne_head h2]
  rfl

theorem column_nameP_cons_fail {x : Char} {t : List Char}
    (hx : isNameChar x = false) : column_nameP (x :: t) = .fail := by
  unfold column_nameP
  rw [nameP_cons_fail hx]
  rfl

theorem operandP_head_fail {x : Char} {t : List Char}
    (hx : isNameChar x = false) : operandP (x :: t) = .fail := by
  have hxt : x ≠ 't' := by
    intro he
    subst he
    exact absurd hx (by decide)
  have hxf : x ≠ 'f' := by
    intro he
    subst he
    exact absurd hx (by decide)
  have hxd : x.isDigit = false := by
    by_cases hd : x.isDigit
    · exact absurd (isNameChar_of_isDigit hd) (by simp [hx])
    · simpa using hd
  rw [operandP_eq, functionP_eq, nameP_cons_fail hx,
    booleanP_cons_fail hxt hxf, numberP_cons_fail hxd,
    column_nameP_cons_fail hx]
  rfl

theorem conditionP_paren_fail (t : List Char) :
    conditionP ('(' :: t) = .fail := by
  unfold conditionP
  rw [operandP_head_fail (by decide)]
  rfl

theorem prefix_takeWhile {p : Char → Bool} :
    ∀ {pre l : List Char}, pre <+: l → (∀ c ∈ pre, p c = true) →
      pre <+: l.takeWhile p := by
  intro pre
  induction pre with
  | nil =>
    intro l h hp
    exact List.nil_prefix
  | cons x t ih =>
    intro l h hp
    obtain ⟨u, hu⟩ := h
    subst hu
    rw [show (x :: t) ++ u = x :: (t ++ u) from rfl, List.takeWhile_cons,
      if_pos (hp x (by simp))]
    rw [List.cons_prefix_cons]
    exact ⟨rfl, ih ⟨u, rfl⟩ (fun c hc => hp c (by simp [hc]))⟩

/-- The flip exclusion: if the maximal name run of `l` is immediately
followed by `'('` (so appending `')'` could complete a `function`), then
no alternative that consumed a run of name characters can have left a
remainder with a good head. -/
theorem flip_core {l pre r nm r2 : List Char}
    (hl : l = pre ++ r) (hpre : ∀ c ∈ pre, isNameChar c = true)
    (hname : nameP l = .ok nm ('(' :: r2)) (hg : goodHead r) : False := by
  obtain ⟨hnm, hne, hdrop⟩ := nameP_ok_iff.mp hname
  have hprel : pre <+: l := ⟨r, hl.symm⟩
  have hpnm : pre <+: l.takeWhile isNameChar := prefix_takeWhile hprel hpre
  rw [← hnm] at hpnm
  obtain ⟨s, hs⟩ := hpnm
  have hl2 : l = nm ++ '(' :: r2 := by
    conv_lhs => rw [(List.takeWhile_append_dropWhile isNameChar l).symm]
    rw [← hnm, ← hdrop]
  have hr : r = s ++ '(' :: r2 := by
    have h0 : pre ++ r = pre ++ (s ++ '(' :: r2) :=
      calc pre ++ r = l := hl.symm
        _ = nm ++ '(' :: r2 := hl2
        _ = (pre ++ s) ++ '(' :: r2 := by rw [hs]
        _ = pre ++ (s ++ '(' :: r2) := by rw [List.append_assoc]
    exact List.append_cancel_left h0
  cases s with
  | nil =>
    simp at hr
    exact absurd rfl (hg '(' r2 hr).2
  | cons y s2 =>
    have hy := (hg y (s2 ++ '(' :: r2) (by simp [hr])).1
    have hmem : y ∈ l.takeWhile isNameChar := by
      rw [← hnm, ← hs]
      simp
    have := List.mem_takeWhile_imp hmem
    rw [hy] at this
    cases this

theorem pmap_eq_fail {α β : Type} {f : α → β} {x : PRes α} :
    pmap f x = .fail ↔ x = .fail := by
  cases x <;> simp

theorem porElse_eq_panic {α : Type} {x y : PRes α} :
    porElse x y = .panic ↔ x = .panic ∨ (x = .fail ∧ y = .panic) := by
  cases x <;> simp [porElse]

theorem extendRes_eq_fail {α : Type} {x : PRes α} :
    extendRes x = .fail ↔ x = .fail := by
  cases x <;> simp

theorem booleanP_ok_shape {l r : List Char} {b : Bool}
    (h : booleanP l = .ok b r) :
    ∃ pre, l = pre ++ r ∧ ∀ c ∈ pre, isNameChar c = true := by
  unfold booleanP at h
  rcases porElse_eq_ok.mp h with h1 | ⟨-, h1⟩ <;>
    obtain ⟨u, hu, -⟩ := pmap_eq_ok.mp h1
  · exact ⟨toChars "true", tagP_ok_iff.mp hu, by decide⟩
  · exact ⟨toChars "false", tagP_ok_iff.mp hu, by decide⟩

theorem numberP_ok_shape {l r : List Char} {v : Int}
    (h : numberP l = .ok v r) :
    ∃ pre, l = pre ++ r ∧ ∀ c ∈ pre, isNameChar c = true := by
  obtain ⟨-, -, -, hr⟩ := numberP_ok_iff.mp h
  refine ⟨l.takeWhile Char.isDigit, ?_, ?_⟩
  · rw [hr]
    exact (List.takeWhile_append_dropWhile Char.isDigit l).symm
  · intro c hc
    exact isNameChar_of_isDigit (List.mem_takeWhile_imp hc)

theorem column_nameP_ok_shape_of_name {l r col nm r2 : List Char}
    (hname : nameP l = .ok nm ('(' :: r2)) (h : column_nameP l = .ok col r) :
    col = nm ∧ r = '(' :: r2 := by
  unfold column_nameP at h
  rcases porElse_eq_ok.mp h with h1 | ⟨-, h1⟩
  · obtain ⟨t0, r1, hn, h2⟩ := pbind_eq_ok.mp h1
    rw [hname] at hn
    cases hn
    obtain ⟨u, r2', hdot, h3⟩ := pbind_eq_ok.mp h2
    have hcontra := tagP_ok_iff.mp hdot
    have hc : '(' = '.' := by injection hcontra
    exact absurd hc (by decide)
  · rw [hname] at h1
    cases h1
    exact ⟨rfl, rfl⟩

theorem functionP_ok_elim {l : List Char} {fv : Function} {rf : List Char}
    (h : functionP l = .ok fv rf) :
    ∃ nm r2 p, nameP l = .ok nm ('(' :: r2) ∧
      operandP r2 = .ok p (')' :: rf) ∧ fv = .mk nm [p] := by
  rw [functionP_eq] at h
  obtain ⟨nm, r1, hn, h2⟩ := pbind_eq_ok.mp h
  obtain ⟨u, r2, hpar, h3⟩ := pbind_eq_ok.mp h2
  obtain ⟨p, r3, hop, h4⟩ := pbind_eq_ok.mp h3
  obtain ⟨u2, r4, hclose, h5⟩ := pbind_eq_ok.mp h4
  cases h5
  have e1 := tagP_ok_iff.mp hpar
  have e2 := tagP_ok_iff.mp hclose
  subst e1
  subst e2
  have hn2 : nameP l = .ok nm ('(' :: r2) := hn
  have hop2 : operandP r2 = .ok p (')' :: rf) := hop
  exact ⟨nm, r2, p, hn2, hop2, rfl⟩

theorem functionP_panic_elim {l : List Char} (h : functionP l = .panic) :
    ∃ nm r2, nameP l = .ok nm ('(' :: r2) ∧ operandP r2 = .panic := by
  rw [functionP_eq] at h
  cases hn : nameP l with
  | fail => rw [hn] at h; cases h
  | panic => exact absurd hn nameP_ne_panic
  | ok nm r1 =>
    rw [hn] at h
    simp only [pbind_ok] at h
    cases hpar : tagP ['('] r1 with
    | fail => rw [hpar] at h; cases h
    | panic => exact absurd hpar tagP_ne_panic
    | ok u r2 =>
      rw [hpar] at h
      simp only [pbind_ok] at h
      have e1 := tagP_ok_iff.mp hpar
      subst e1
      cases hop : operandP r2 with
      | fail => rw [hop] at h; cases h
      | panic => exact ⟨nm, r2, rfl, hop⟩
      | ok p r3 =>
        rw [hop] at h
        simp only [pbind_ok] at h
        cases hclose : tagP [')'] r3 with
        | fail => rw [hclose] at h; cases h
        | panic => exact absurd hclose tagP_ne_panic
        | ok u2 r4 => rw [hclose] at h; cases h

theorem functionP_ext_fail_name {l : List Char} (hn : nameP l = .fail) :
    functionP (l ++ [')']) = .fail := by
  rw [functionP_eq, nameP_ext, hn]
  rfl

theorem functionP_ext_fail_nil {l nm : List Char}
    (hn : nameP l = .ok nm []) : functionP (l ++ [')']) = .fail := by
  rw [functionP_eq, nameP_ext, hn]
  simp only [extendRes_ok, pbind_ok, List.nil_append]
  rw [tagP_ne_head (by decide)]
  rfl

theorem functionP_ext_fail_notParen {l nm : List Char} {y : Char}
    {r20 : List Char} (hn : nameP l = .ok nm (y :: r20)) (hy : y ≠ '(') :
    functionP (l ++ [')']) = .fail := by
  rw [functionP_eq, nameP_ext, hn]
  simp only [extendRes_ok, pbind_ok, List.cons_append]
  rw [tagP_ne_head hy]
  rfl

theorem functionP_inner {l nm r20 : List Char}
    (hn : nameP l = .ok nm ('(' :: r20)) :
    functionP l = pbind (operandP r20) fun p r3 =>
      pbind (tagP [')'] r3) fun _ r4 => .ok (.mk nm [p]) r4 := by
  rw [functionP_eq, hn]
  simp only [pbind_ok]
  rw [tagP_cons_self]
  rfl

theorem functionP_inner_ext {l nm r20 : List Char}
    (hn : nameP l = .ok nm ('(' :: r20)) :
    functionP (l ++ [')']) = pbind (operandP (r20 ++ [')'])) fun p r3 =>
      pbind (tagP [')'] r3) fun _ r4 => .ok (.mk nm [p]) r4 := by
  rw [functionP_eq, nameP_ext, hn]
  simp only [extendRes_ok, pbind_ok, List.cons_append]
  rw [tagP_cons_self]
  rfl

theorem nameP_paren_lt {l nm r20 : List Char}
    (hn : nameP l = .ok nm ('(' :: r20)) : r20.length < l.length := by
  obtain ⟨happ, hne⟩ := nameP_ok_append hn
  subst happ
  cases nm with
  | nil => exact absurd rfl hne
  | cons a t => simp; omega

/-- The master extension property of `operand`/`function` under a `')'`
appended to the input, by strong induction on the input length: a
successful `function` extends unchanged; a successful `operand` whose
remainder cannot extend a name or open a call extends unchanged; and the
appended `')'` can never introduce a panic. -/
theorem opfun_paren_ext :
    ∀ n : Nat, ∀ l : List Char, l.length ≤ n →
      ((∀ fv rf, functionP l = .ok fv rf →
          functionP (l ++ [')']) = .ok fv (rf ++ [')'])) ∧
       (∀ v r, operandP l = .ok v r → goodHead r →
          operandP (l ++ [')']) = .ok v (r ++ [')'])) ∧
       (operandP l ≠ .panic → operandP (l ++ [')']) ≠ .panic)) := by
  intro n
  induction n using Nat.strong_induction_on with
  | _ n ih =>
    intro l hlen
    have funExt : ∀ fv rf, functionP l = .ok fv rf →
        functionP (l ++ [')']) = .ok fv (rf ++ [')']) := by
      intro fv rf hf
      obtain ⟨nm, r2, p, hn, hop, rfl⟩ := functionP_ok_elim hf
      have hlt := nameP_paren_lt hn
      have hIH := ih r2.length (by omega) r2 le_rfl
      have hop' := hIH.2.1 p (')' :: rf) hop
        (goodHead_cons (by decide) (by decide) rf)
      rw [functionP_inner_ext hn, hop']
      simp only [pbind_ok, List.cons_append]
      rw [tagP_cons_self]
      rfl
    refine ⟨funExt, ?_, ?_⟩
    · intro v r hop hg
      rw [operandP_eq] at hop
      rcases porElse_eq_ok.mp hop with h1 | ⟨hffail, hop⟩
      · obtain ⟨a, ha, rfl⟩ := pmap_eq_ok.mp h1
        rw [operandP_eq, funExt a r ha]
        rfl
      · have hffail2 := pmap_eq_fail.mp hffail
        have hfun' : functionP (l ++ [')']) = .fail := by
          cases hn : nameP l with
          | panic => exact absurd hn nameP_ne_panic
          | fail => exact functionP_ext_fail_name hn
          | ok nm r1 =>
            cases r1 with
            | nil => exact functionP_ext_fail_nil hn
            | cons y r20 =>
              by_cases hy : y = '('
              · subst hy
                exfalso
                rcases porElse_eq_ok.mp hop with h2 | ⟨hbfail, hop⟩
                · obtain ⟨b, hb, -⟩ := pmap_eq_ok.mp h2
                  obtain ⟨pre, hl, hpre⟩ := booleanP_ok_shape hb
                  exact flip_core hl hpre hn hg
                rcases porElse_eq_ok.mp hop with h3 | ⟨hnfail, h4⟩
                · obtain ⟨nv, hnum, -⟩ := pmap_eq_ok.mp h3
                  obtain ⟨pre, hl, hpre⟩ := numberP_ok_shape hnum
                  exact flip_core hl hpre hn hg
                · obtain ⟨col, hcol, -⟩ := pmap_eq_ok.mp h4
                  obtain ⟨-, hr⟩ := column_nameP_ok_shape_of_name hn hcol
                  subst hr
                  exact absurd rfl (hg '(' r20 rfl).2
              · exact functionP_ext_fail_notParen hn hy
        rw [operandP_eq, hfun', booleanP_ext, numberP_ext, column_nameP_ext]
        simp only [pmap_fail, porElse_fail]
        rcases porElse_eq_ok.mp hop with h2 | ⟨hbfail, hop⟩
        · obtain ⟨b, hb, rfl⟩ := pmap_eq_ok.mp h2
          rw [hb]
          rfl
        rcases porElse_eq_ok.mp hop with h3 | ⟨hnfail, h4⟩
        · obtain ⟨nv, hnum, rfl⟩ := pmap_eq_ok.mp h3
          rw [pmap_eq_fail.mp hbfail, hnum]
          rfl
        · obtain ⟨col, hcol, rfl⟩ := pmap_eq_ok.mp h4
          rw [pmap_eq_fail.mp hbfail, pmap_eq_fail.mp hnfail, hcol]
          rfl
    · intro hnp h'
      rw [operandP_eq, booleanP_ext, numberP_ext, column_nameP_ext] at h'
      cases hf' : functionP (l ++ [')']) with
      | ok fv rf =>
        rw [hf'] at h'
        simp only [pmap_ok, porElse_ok] at h'
        cases h'
      | fail =>
        rw [hf'] at h'
        simp only [pmap_fail, porElse_fail] at h'
        have htail :
            porElse (pmap Operand.Boolean (booleanP l))
              (porElse (pmap Operand.Number (numberP l))
                (pmap Operand.Column (column_nameP l))) = .panic := by
          cases hb : booleanP l with
          | panic => rfl
          | ok b rb =>
            rw [hb] at h'
            simp only [extendRes_ok, pmap_ok, porElse_ok] at h'
            cases h'
          | fail =>
            rw [hb] at h'
            simp only [extendRes_fail, pmap_fail, porElse_fail] at h'
            simp only [pmap_fail, porElse_fail]
            cases hnum : numberP l with
            | panic => rfl
            | ok nv rn =>
              rw [hnum] at h'
              simp only [extendRes_ok, pmap_ok, porElse_ok] at h'
              cases h'
            | fail =>
              rw [hnum] at h'
              simp only [extendRes_fail, pmap_fail, porElse_fail] at h'
              simp only [pmap_fail, porElse_fail]
              cases hcol : column_nameP l with
              | panic => rfl
              | ok cv rc =>
                rw [hcol] at h'
                simp only [extendRes_ok, pmap_ok] at h'
                cases h'
              | fail =>
                rw [hcol] at h'
                simp only [extendRes_fail, pmap_fail] at h'
                cases h'
        cases hfl : functionP l with
        | ok fv rf =>
          rw [funExt fv rf hfl] at hf'
          cases hf'
        | panic =>
          exact hnp (by rw [operandP_eq, hfl]; rfl)
        | fail =>
          refine hnp ?_
          rw [operandP_eq, hfl]
          simp only [pmap_fail, porElse_fail]
          exact htail
      | panic =>
        obtain ⟨nm, r2', hn', hopP⟩ := functionP_panic_elim hf'
        rw [nameP_ext] at hn'
        cases hn0 : nameP l with
        | fail => rw [hn0] at hn'; cases hn'
        | panic => exact absurd hn0 nameP_ne_panic
        | ok nm0 r10 =>
          rw [hn0] at hn'
          simp only [extendRes_ok] at hn'
          cases r10 with
          | nil =>
            simp only [List.nil_append] at hn'
            have : (')' : Char) = '(' := by
              injection hn' with h1 h2
              injection h2
            exact absurd this (by decide)
          | cons y t =>
            simp only [List.cons_append] at hn'
            injection hn' with h1 h2
            injection h2 with h3 h4
            subst h1
            subst h3
            subst h4
            have hopt : operandP t ≠ .panic := by
              intro hpt
              refine hnp ?_
              rw [operandP_eq, functionP_inner hn0, hpt]
              rfl
            have hlt := nameP_paren_lt hn0
            have hIH := ih t.length (by omega) t le_rfl
            exact hIH.2.2 hopt hopP

theorem operandP_paren_ok_ext {l : List Char} {v : Operand} {r : List Char}
    (h : operandP l = .ok v r) (hg : goodHead r) :
    operandP (l ++ [')']) = .ok v (r ++ [')']) :=
  (opfun_paren_ext l.length l le_rfl).2.1 v r h hg

/-- A remainder whose head (if any) is a connector or a closing
parenthesis — the only things that may follow a condition here. -/
def goodHeadC (r : List Char) : Prop :=
  ∀ y t, r = y :: t → y = '&' ∨ y = '|' ∨ y = ')'

theorem goodHeadC_goodHead {r : List Char} (h : goodHeadC r) : goodHead r := by
  intro y t he
  rcases h y t he with rfl | rfl | rfl <;> exact ⟨by decide, by decide⟩

theorem conditionP_ext {l : List Char} {v : Condition} {r : List Char}
    (h : conditionP l = .ok v r) (hg : goodHeadC r) :
    conditionP (l ++ [')']) = .ok v (r ++ [')']) := by
  unfold conditionP at h ⊢
  obtain ⟨lft, r1, hop1, h2⟩ := pbind_eq_ok.mp h
  obtain ⟨u1, r2, heqTag, h3⟩ := pbind_eq_ok.mp h2
  obtain ⟨e, r3, heql, h4⟩ := pbind_eq_ok.mp h3
  obtain ⟨u2, r4, hdot, h5⟩ := pbind_eq_ok.mp h4
  obtain ⟨rgt, r5, hop2, h6⟩ := pbind_eq_ok.mp h5
  cases h6
  have e1 := tagP_ok_iff.mp heqTag
  have e2 := tagP_ok_iff.mp hdot
  have hop1' := operandP_paren_ok_ext hop1 (by
    rw [e1]
    exact goodHead_cons (by decide) (by decide) r2)
  have hop2' := operandP_paren_ok_ext hop2 (goodHeadC_goodHead hg)
  rw [hop1']
  simp only [pbind_ok]
  rw [tagP_ext (by decide), heqTag]
  simp only [extendRes_ok, pbind_ok]
  rw [equalityP_ext, heql]
  simp only [extendRes_ok, pbind_ok]
  rw [tagP_ext (by decide), hdot]
  simp only [extendRes_ok, pbind_ok]
  rw [hop2']
  rfl

/-- A remainder whose head (if any) is a closing parenthesis. -/
def goodHeadF (r : List Char) : Prop := ∀ y t, r = y :: t → y = ')'

theorem connectorP_ok_shape {r : List Char} {k : Connector} {r2 : List Char}
    (h : connectorP r = .ok k r2) : r = connChar k :: r2 := by
  unfold connectorP at h
  rcases porElse_eq_ok.mp h with h1 | ⟨-, h1⟩ <;>
    obtain ⟨u, hu, hk⟩ := pmap_eq_ok.mp h1 <;> subst hk <;>
    exact tagP_ok_iff.mp hu

theorem connectorP_goodF_fail {r : List Char} (hg : goodHeadF r) :
    connectorP r = .fail := by
  cases r with
  | nil => rfl
  | cons y t =>
    have := hg y t rfl
    subst this
    unfold connectorP
    rw [tagP_ne_head (by decide), tagP_ne_head (by decide)]
    rfl

/-- The extension property of `filter` under a `')'` appended to the
input, by strong induction on the input length. -/
theorem filter_paren_ext :
    ∀ n : Nat, ∀ l : List Char, l.length ≤ n → ∀ F r,
      filterP l = .ok F r → goodHeadF r →
      filterP (l ++ [')']) = .ok F (r ++ [')']) := by
  intro n
  induction n using Nat.strong_induction_on with
  | _ n ih =>
    intro l hlen F r h hg
    rw [filterP_eq] at h
    rcases porElse_eq_ok.mp h with h1 | ⟨hf1, h⟩
    · unfold filterAlt1 at h1
      obtain ⟨c, r1, hcond, h2⟩ := pbind_eq_ok.mp h1
      obtain ⟨k, r2, hconn, h3⟩ := pbind_eq_ok.mp h2
      obtain ⟨f, r3, hrec, h4⟩ := pbind_eq_ok.mp h3
      cases h4
      have hshape := connectorP_ok_shape hconn
      have hcond' := conditionP_ext hcond (by
        intro y t he
        rw [hshape] at he
        injection he with hy ht
        subst hy
        cases k
        · exact .inl rfl
        · exact .inr (.inl rfl))
      have hlc := conditionP_consume hcond
      have hlk := connectorP_consume hconn
      have hrec' := ih r2.length (by omega) r2 le_rfl f r hrec hg
      rw [filterP_eq]
      unfold filterAlt1
      rw [hcond']
      simp only [pbind_ok]
      rw [hshape]
      simp only [List.cons_append]
      rw [connectorP_cons]
      simp only [pbind_ok]
      rw [hrec']
      simp only [pbind_ok, porElse_ok]
    · rcases porElse_eq_ok.mp h with h2 | ⟨hf2, h3⟩
      · unfold filterAlt2 at h2
        obtain ⟨u, t, hpar, hh⟩ := pbind_eq_ok.mp h2
        obtain ⟨f, rin, hrec, hh2⟩ := pbind_eq_ok.mp hh
        obtain ⟨u2, r4, hclose, hh3⟩ := pbind_eq_ok.mp hh2
        cases hh3
        have e1 := tagP_ok_iff.mp hpar
        have e2 := tagP_ok_iff.mp hclose
        subst e1
        subst e2
        have hlt : t.length < n := by
          simp at hlen
          omega
        have hrec' := ih t.length hlt t le_rfl F ([')'] ++ r) hrec (by
          intro y t' he
          injection he with hy ht
          exact hy.symm)
        rw [filterP_eq]
        unfold filterAlt1 filterAlt2
        rw [show (['('] ++ t) ++ [')'] = '(' :: (t ++ [')']) from rfl]
        rw [conditionP_paren_fail]
        simp only [pbind_fail, porElse_fail]
        rw [tagP_cons_self]
        simp only [pbind_ok]
        rw [hrec']
        simp only [pbind_ok]
        rw [show ([')'] ++ r) ++ [')'] = ')' :: (r ++ [')']) from rfl]
        rw [tagP_cons_self]
        simp only [pbind_ok, porElse_ok]
      · unfold filterAlt3 at h3
        obtain ⟨c, r0, hcond, hh⟩ := pbind_eq_ok.mp h3
        cases hh
        have hcond' := conditionP_ext hcond
          (fun y t he => .inr (.inr (hg y t he)))
        have hconn' : connectorP (r ++ [')']) = .fail :=
          connectorP_goodF_fail (by
            intro y t he
            cases r with
            | nil =>
              injection he with hy ht
              exact hy.symm
            | cons z zs =>
              have hz := hg z zs rfl
              subst hz
              injection he with hy ht
              exact hy.symm)
        rw [filterP_eq]
        unfold filterAlt1 filterAlt2 filterAlt3
        rw [hcond']
        simp only [pbind_ok]
        rw [hconn']
        simp only [pbind_fail, porElse_fail]
        obtain ⟨x, t2, rfl, hx⟩ := conditionP_ok_head hcond
        have hxp : x ≠ '(' := by
          intro he
          subst he
          exact absurd hx (by decide)
        rw [show (x :: t2) ++ [')'] = x :: (t2 ++ [')']) from rfl]
        rw [tagP_ne_head hxp]
        simp only [pbind_fail, porElse_fail]

theorem pubRun_ok_iff {α : Type} {p : List Char → PRes α} {l : List Char}
    {a : α} : pubRun p l = .ok a ↔ p l = .ok a [] := by
  unfold pubRun
  cases hp : p l with
  | ok v r => cases r <;> simp
  | fail => simp
  | panic => simp

/-- C4: parentheses around a filter are pure syntax: whenever the
`filter` rule accepts a whole input `s` yielding `F`, it also accepts
`( s )` yielding the identical value `F` — the `'(' filter ')'`
alternative returns the inner result unchanged, and the `Filter` type has
no grouping constructor at all. -/
theorem c4_parentheses_transparent (s : List Char) (F : Filter)
    (h : pubRun filterP s = .ok F) :
    pubRun filterP ('(' :: (s ++ [')'])) = .ok F := by
  have h0 : filterP s = .ok F [] := pubRun_ok_iff.mp h
  have hext := filter_paren_ext s.length s le_rfl F [] h0 (by
    intro y t he
    cases he)
  rw [pubRun_ok_iff, filterP_eq]
  unfold filterAlt1 filterAlt2
  rw [conditionP_paren_fail]
  simp only [pbind_fail, porElse_fail]
  rw [tagP_cons_self]
  simp only [pbind_ok]
  rw [hext]
  simp only [List.nil_append, pbind_ok]
  rw [show ([')'] : List Char) = ')' :: [] from rfl, tagP_cons_self]
  rfl

/-- C4 witness: `(a=eq.1)` parses to the same leaf filter as `a=eq.1`. -/
theorem c4_parentheses_transparent_witness :
    pubRun filterP ('(' :: (toChars "a=eq.1" ++ [')'])) =
      .ok (.mk none ⟨.Column ['a'], .EQ, .Number 1⟩ []) :=
  c4_parentheses_transparent (toChars "a=eq.1")
    (.mk none ⟨.Column ['a'], .EQ, .Number 1⟩ []) rfl

/-! ## The pom-based literal grammar of `src/parser.rs`

pom parsers are embedded as `List Char → Option (α × List Char)`: pom has
no panic (conversion failures surface as parse failures), `|` is ordered
choice, `repeat` is greedy.  `Value::Number(f64)` is abstracted as the
matched numeral text (the `collect`ed slice): `f64::from_str` is total on
the number grammar's matches, and no claim inspects the numeric value. -/

/-- `Value` of `src/parser.rs` (`Number` carries the matched text, see
module note). -/
inductive Value : Type
  | Null : Value
  | String : List Char → Value
  | Number : List Char → Value
  | Bool : Bool → Value
deriving DecidableEq, Repr

/-- Greedy `e.repeat(0..)`, fueled; the element parser must consume. -/
def pomMany {α : Type} (p : List Char → Option (α × List Char)) :
    Nat → List Char → Option (List α × List Char)
  | 0, l => some ([], l)
  | fuel + 1, l =>
    match p l with
    | none => some ([], l)
    | some (a, r) =>
      match pomMany p fuel r with
      | some (as, r2) => some (a :: as, r2)
      | none => none

theorem pomMany_isSome {α : Type} (p : List Char → Option (α × List Char)) :
    ∀ (fuel : Nat) (l : List Char), (pomMany p fuel l).isSome := by
  intro fuel
  induction fuel with
  | zero => intro l; simp [pomMany]
  | succ f ih =>
    intro l
    unfold pomMany
    cases hp : p l with
    | none => simp
    | some ar =>
      obtain ⟨a, r⟩ := ar
      have hr := ih r
      show (match pomMany p f r with
        | some (as, r2) => some (a :: as, r2)
        | none => none).isSome = true
      cases hm : pomMany p f r with
      | none => rw [hm] at hr; simp at hr
      | some x =>
        obtain ⟨as, r2⟩ := x
        simp

/-- `one_of("123456789") - one_of("0123456789").repeat(0..) | sym('0')`,
returning the consumed slice. -/
def pomInteger (l : List Char) : Option (List Char × List Char) :=
  match l with
  | [] => none
  | c :: rest =>
    if c ∈ toChars "123456789" then
      some (c :: rest.takeWhile Char.isDigit, rest.dropWhile Char.isDigit)
    else if c = '0' then some (['0'], rest)
    else none

/-- `sym('.') + one_of("0123456789").repeat(1..)`. -/
def pomFrac (l : List Char) : Option (List Char × List Char) :=
  match l with
  | '.' :: rest =>
    match rest.takeWhile Char.isDigit with
    | [] => none
    | ds => some ('.' :: ds, rest.dropWhile Char.isDigit)
  | _ => none

/-- `one_of("eE") + one_of("+-").opt() + one_of("0123456789").repeat(1..)`. -/
def pomExp (l : List Char) : Option (List Char × List Char) :=
  match l with
  | [] => none
  | c :: rest =>
    if c = 'e' ∨ c = 'E' then
      let sr : List Char × List Char :=
        match rest with
        | s :: r2 => if s = '+' ∨ s = '-' then ([s], r2) else ([], rest)
        | [] => ([], rest)
      match sr.2.takeWhile Char.isDigit with
      | [] => none
      | ds => some (c :: (sr.1 ++ ds), sr.2.dropWhile Char.isDigit)
    else none

/-- `number()` of `src/parser.rs`: `sym('-').opt() + integer + frac.opt()
+ exp.opt()`, `collect`ed (see module note on the `f64` conversion). -/
def numberPom (l : List Char) : Option (List Char × List Char) :=
  let sr : List Char × List Char :=
    match l with
    | '-' :: r => (['-'], r)
    | _ => ([], l)
  match pomInteger sr.2 with
  | none => none
  | some (ip, r1) =>
    let fr : List Char × List Char :=
      match pomFrac r1 with
      | some x => x
      | none => ([], r1)
    let er : List Char × List Char :=
      match pomExp fr.2 with
      | some x => x
      | none => ([], fr.2)
    some (sr.1 ++ ip ++ fr.1 ++ er.1, er.2)

/-- `bool()` of `src/parser.rs`. -/
def boolPom (l : List Char) : Option (Bool × List Char) :=
  if toChars "true" <+: l then some (true, l.drop 4)
  else if toChars "false" <+: l then some (false, l.drop 5)
  else none

/-- The raw-string character class: `none_of("=&()")`. -/
def notDelim (c : Char) : Bool :=
  !(c == '=' || c == '&' || c == '(' || c == ')')

/-- `char_string = none_of("=&()").repeat(1..)` inside `string()`. -/
def charStringPom (l : List Char) : Option (List Char × List Char) :=
  match l.takeWhile notDelim with
  | [] => none
  | s => some (s, l.dropWhile notDelim)

/-- `string()` of `src/parser.rs`: `char_string.repeat(0..)`,
concatenated — note the outer `repeat(0..)`, which accepts the empty
string. -/
def stringPom (l : List Char) : Option (List Char × List Char) :=
  match pomMany charStringPom (l.length + 1) l with
  | some (chunks, r) => some (chunks.flatten, r)
  | none => none

/-- `value()` of `src/parser.rs`: `null | bool | number | string`,
ordered choice with first match winning. -/
def valuePom (l : List Char) : Option (Value × List Char) :=
  if toChars "null" <+: l then some (.Null, l.drop 4)
  else
    match boolPom l with
    | some (b, r) => some (.Bool b, r)
    | none =>
      match numberPom l with
      | some (t, r) => some (.Number t, r)
      | none =>
        match stringPom l with
        | some (s, r) => some (.String s, r)
        | none => none

/-! ## C7 — the value parse order and the raw-string fallback -/

theorem takeWhile_eq_self_of_all {p : Char → Bool} {l : List Char}
    (h : ∀ c ∈ l, p c = true) :
    l.takeWhile p = l ∧ l.dropWhile p = [] := by
  have := takeWhile_append_run l [] h rfl
  rwa [List.append_nil] at this

/-- C7 (amended): `value` tries `null`, `bool`, `number`, `raw string` in
that order with the first match winning and each alternative committing
on a prefix match; the raw-string fallback is a possibly-empty run of
non-delimiter characters, so `value` never fails on non-empty input; and
for every non-empty input containing no delimiter `'=' '&' '(' ')'`,
not starting with the `null`/`true`/`false` keywords, and not starting
with a numeric literal, `value` returns the whole input as
`Value::String`. -/
theorem c7_value_order_and_fallback :
    (∀ l : List Char, l ≠ [] → (valuePom l).isSome = true) ∧
    (∀ l : List Char, l ≠ [] → (∀ c ∈ l, notDelim c = true) →
      ¬(toChars "null" <+: l) → boolPom l = none → numberPom l = none →
      valuePom l = some (.String l, [])) := by
  constructor
  · intro l hne
    unfold valuePom
    split
    · simp
    · cases hb : boolPom l with
      | some br => obtain ⟨b, r⟩ := br; simp
      | none =>
        cases hn : numberPom l with
        | some tr => obtain ⟨t, r⟩ := tr; simp
        | none =>
          unfold stringPom
          cases hm : pomMany charStringPom (l.length + 1) l with
          | none =>
            have := pomMany_isSome charStringPom (l.length + 1) l
            rw [hm] at this
            simp at this
          | some x =>
            obtain ⟨chunks, r⟩ := x
            simp
  · intro l hne hall hnull hb hn
    have hstr : stringPom l = some (l, []) := by
      obtain ⟨h1, h2⟩ := takeWhile_eq_self_of_all hall
      have hcs : charStringPom l = some (l, []) := by
        unfold charStringPom
        rw [h1, h2]
        cases l with
        | nil => exact absurd rfl hne
        | cons x t => rfl
      cases l with
      | nil => exact absurd rfl hne
      | cons x t =>
        have hm : pomMany charStringPom ((x :: t).length + 1) (x :: t) =
            some ([x :: t], []) := by
          show pomMany charStringPom (t.length + 1 + 1) (x :: t) =
            some ([x :: t], [])
          unfold pomMany
          rw [hcs]
          show (match pomMany charStringPom (t.length + 1) [] with
            | some (as, r2) => some ((x :: t) :: as, r2)
            | none => none) = some ([x :: t], [])
          unfold pomMany
          rw [show charStringPom [] = none from rfl]
        unfold stringPom
        rw [hm]
        simp
    unfold valuePom
    rw [if_neg hnull, hb, hn, hstr]

/-- C7 witness: the amended fallback at `abc`. -/
theorem c7_value_order_and_fallback_witness :
    valuePom (toChars "abc") = some (.String (toChars "abc"), []) :=
  c7_value_order_and_fallback.2 (toChars "abc") (by decide) (by decide)
    (by decide) (by decide) (by decide)

/-- C7 counterexample: `nullx` is non-empty, its text is not `null`,
`true` or `false`, and it is not numeric, yet `value` does not return it
as `Value::String("nullx")`: the `null` alternative commits on the
keyword prefix and yields `Null` with `"x"` unconsumed. -/
theorem c7_prefix_commit_counterexample :
    toChars "nullx" ≠ toChars "null" ∧ toChars "nullx" ≠ toChars "true" ∧
    toChars "nullx" ≠ toChars "false" ∧ numberPom (toChars "nullx") = none ∧
    valuePom (toChars "nullx") = some (.Null, ['x']) :=
  ⟨by decide, by decide, by decide, rfl, rfl⟩

/-! ## C8 — `quoted_string()` of `src/parser.rs` -/

/-- `special_char`: the escapable characters after a backslash, in source
order (`\\ \/ \" \b \f \n \r \t`). -/
def specialChar (l : List Char) : Option (Char × List Char) :=
  match l with
  | [] => none
  | c :: r =>
    if c = '\\' then some ('\\', r)
    else if c = '/' then some ('/', r)
    else if c = '"' then some ('"', r)
    else if c = 'b' then some ('\x08', r)
    else if c = 'f' then some ('\x0C', r)
    else if c = 'n' then some ('\n', r)
    else if c = 'r' then some ('\r', r)
    else if c = 't' then some ('\t', r)
    else none

/-- `escape_sequence = sym('\\') * special_char`. -/
def escapeSeq (l : List Char) : Option (Char × List Char) :=
  match l with
  | '\\' :: r => specialChar r
  | _ => none

/-- One character of `char_string`: `none_of("\\\"") | escape_sequence`. -/
def qchar (l : List Char) : Option (Char × List Char) :=
  match l with
  | [] => none
  | c :: r =>
    if c ≠ '\\' ∧ c ≠ '"' then some (c, r)
    else escapeSeq (c :: r)

/-- `char_string = (none_of("\\\"") | escape_sequence).repeat(1..)`. -/
def charStringQ (l : List Char) : Option (List Char × List Char) :=
  match qchar l with
  | none => none
  | some (c, r) =>
    match pomMany qchar (r.length + 1) r with
    | some (cs, r2) => some (c :: cs, r2)
    | none => none

/-- Rust `char::is_digit(16)`. -/
def isHex (c : Char) : Bool :=
  c.isDigit || ('a' ≤ c && c ≤ 'f') || ('A' ≤ c && c ≤ 'F')

/-- Value of a hexadecimal digit. -/
def hexVal (c : Char) : Nat :=
  if c.isDigit then c.toNat - 48
  else if 'a' ≤ c && c ≤ 'f' then c.toNat - 87
  else c.toNat - 55

/-- `utf16_char = tag("\\u") * is_a(is_digit(16)).repeat(4)` converted by
`u16::from_str_radix(_, 16)` (total here: four hex digits are at most
`0xFFFF`). -/
def utf16Char (l : List Char) : Option (Nat × List Char) :=
  match l with
  | '\\' :: 'u' :: a :: b :: c :: d :: rest =>
    if isHex a && isHex b && isHex c && isHex d then
      some (hexVal a * 4096 + hexVal b * 256 + hexVal c * 16 + hexVal d, rest)
    else none
  | _ => none

/-- `char::REPLACEMENT_CHARACTER`, U+FFFD. -/
def replacementChar : Char := Char.ofNat 0xFFFD

/-- Rust `std::char::decode_utf16` with `unwrap_or(REPLACEMENT_CHARACTER)`:
a high surrogate followed by a low surrogate combines into one scalar;
any unpaired or inverted surrogate becomes U+FFFD; other units pass
through. -/
def decodeUtf16 : List Nat → List Char
  | [] => []
  | [u] =>
    if 0xD800 ≤ u ∧ u ≤ 0xDBFF then [replacementChar]
    else if 0xDC00 ≤ u ∧ u ≤ 0xDFFF then [replacementChar]
    else [Char.ofNat u]
  | u :: u2 :: rest2 =>
    if 0xD800 ≤ u ∧ u ≤ 0xDBFF then
      if 0xDC00 ≤ u2 ∧ u2 ≤ 0xDFFF then
        Char.ofNat (0x10000 + (u - 0xD800) * 0x400 + (u2 - 0xDC00)) ::
          decodeUtf16 rest2
      else replacementChar :: decodeUtf16 (u2 :: rest2)
    else if 0xDC00 ≤ u ∧ u ≤ 0xDFFF then
      replacementChar :: decodeUtf16 (u2 :: rest2)
    else Char.ofNat u :: decodeUtf16 (u2 :: rest2)

/-- `utf16_string = utf16_char.repeat(1..)` decoded by `decode_utf16`. -/
def utf16String (l : List Char) : Option (List Char × List Char) :=
  match utf16Char l with
  | none => none
  | some (u, r) =>
    match pomMany utf16Char (r.length + 1) r with
    | some (us, r2) => some (decodeUtf16 (u :: us), r2)
    | none => none

/-- One repetition of `(char_string | utf16_string)`. -/
def qsChunk (l : List Char) : Option (List Char × List Char) :=
  match charStringQ l with
  | some x => some x
  | none => utf16String l

/-- `quoted_string() = sym('"') * (char_string | utf16_string).repeat(0..)
- sym('"')`, concatenated. -/
def quoted_stringPom (l : List Char) : Option (List Char × List Char) :=
  match l with
  | '"' :: r =>
    (match pomMany qsChunk (r.length + 1) r with
     | some (chunks, r2) =>
       (match r2 with
        | '"' :: r3 => some (chunks.flatten, r3)
        | _ => none)
     | none => none)
  | _ => none

theorem decodeUtf16_unpaired {u : Nat} (h1 : 0xD800 ≤ u)
    (h2 : u ≤ 0xDFFF) : decodeUtf16 [u] = [replacementChar] := by
  by_cases hu : u ≤ 0xDBFF
  · unfold decodeUtf16
    rw [if_pos ⟨h1, hu⟩]
  · unfold decodeUtf16
    rw [if_neg (by omega), if_pos ⟨by omega, h2⟩]

theorem decodeUtf16_pair {h u : Nat} (hh1 : 0xD800 ≤ h) (hh2 : h ≤ 0xDBFF)
    (hl1 : 0xDC00 ≤ u) (hl2 : u ≤ 0xDFFF) :
    decodeUtf16 [h, u] =
      [Char.ofNat (0x10000 + (h - 0xD800) * 0x400 + (u - 0xDC00))] := by
  unfold decodeUtf16
  rw [if_pos ⟨hh1, hh2⟩, if_pos ⟨hl1, hl2⟩]
  rfl

/-- C8: `quoted_string` maps the eight escapes to their characters,
decodes `\uXXXX` (exactly four hex digits) as UTF-16 with surrogate-pair
combination, and replaces an unpaired surrogate with U+FFFD instead of
failing: `"a\nb"` gives the three characters `a`, newline, `b`; all
eight escapes decode; `\u0041` is `A`; `\uD83D\uDE00` combines to
U+1F600; a lone `\uD800` yields the replacement character and the parse
still succeeds; a three-digit `\u041` is rejected; and in general any
lone surrogate unit decodes to U+FFFD and any high/low pair combines by
the standard formula. -/
theorem c8_quoted_string_escapes :
    quoted_stringPom (toChars "\"a\\nb\"") = some (['a', '\n', 'b'], []) ∧
    quoted_stringPom (toChars "\"\\\\\\/\\\"\\b\\f\\n\\r\\t\"") =
      some (['\\', '/', '"', '\x08', '\x0C', '\n', '\r', '\t'], []) ∧
    quoted_stringPom (toChars "\"\\u0041\"") = some (['A'], []) ∧
    quoted_stringPom (toChars "\"\\uD83D\\uDE00\"") =
      some ([Char.ofNat 0x1F600], []) ∧
    quoted_stringPom (toChars "\"\\uD800\"") = some ([replacementChar], []) ∧
    quoted_stringPom (toChars "\"\\u041\"") = none ∧
    (∀ u : Nat, 0xD800 ≤ u → u ≤ 0xDFFF →
      decodeUtf16 [u] = [replacementChar]) ∧
    (∀ h u : Nat, 0xD800 ≤ h → h ≤ 0xDBFF → 0xDC00 ≤ u → u ≤ 0xDFFF →
      decodeUtf16 [h, u] =
        [Char.ofNat (0x10000 + (h - 0xD800) * 0x400 + (u - 0xDC00))]) :=
  ⟨rfl, rfl, rfl, rfl, rfl, rfl,
   fun _ h1 h2 => decodeUtf16_unpaired h1 h2,
   fun _ _ hh1 hh2 hl1 hl2 => decodeUtf16_pair hh1 hh2 hl1 hl2⟩

/-- C8 witness: the general surrogate clauses at concrete units. -/
theorem c8_quoted_string_escapes_witness :
    decodeUtf16 [0xD800] = [replacementChar] ∧
    decodeUtf16 [0xD83D, 0xDE00] =
      [Char.ofNat (0x10000 + (0xD83D - 0xD800) * 0x400 + (0xDE00 - 0xDC00))] :=
  ⟨c8_quoted_string_escapes.2.2.2.2.2.2.1 0xD800 (by decide) (by decide),
   c8_quoted_string_escapes.2.2.2.2.2.2.2 0xD83D 0xDE00 (by decide)
     (by decide) (by decide) (by decide)⟩

end Inquerest
